import Mathlib

/-!
# binfetch: naming-convention resolution (internal/pkg/objstore/list.go)

A shallow embedding of the Go code of `list.go` and theorems about it.

Modelling conventions.

* A Go `string` is modelled by the list of its characters (`List Char`); keys are taken
  to be valid UTF-8 text, which is what Go's `regexp` iterates over.
* `int64` values are modelled by `Int`; `strconv.ParseInt` performs the range checks.
* `*T` results that may be `nil` are modelled by `Option T`; `(T, error)` results by
  `Except Error T`.
* The S3 service handle `*s3.S3` is used only through `ListObjectsV2`; it is modelled
  by the function from the request to the response it gives.
* The three regular expressions of the file only use character classes quantified by
  nothing, `+` or `+?`, capture groups around one such item, and `^`.  They are modelled
  by a list of items and run by a backtracking matcher, which is the leftmost-first
  semantics that Go's `regexp` package documents for `FindStringSubmatch`.
* Loops are recursive functions on the listing; a `return` inside a loop ends the
  recursion.  The loop of `strings.Split` gets the length of the string as its bound on
  the number of cuts (`genSplit_fuel`: a larger bound changes nothing).
* A run-time panic (the slice `[:len-1]` of an empty prefix) is an error outcome.
-/

namespace Binfetch

/-! ## Go library functions used by the code -/

/-- Go `strings.HasPrefix(s, sub)`. -/
def HasPrefix : List Char → List Char → Bool
  | _, [] => true
  | [], _ :: _ => false
  | c :: s, d :: sub => c == d && HasPrefix s sub

/-- Go `strings.Index(s, sub)`: the index of the first occurrence of `sub` in `s`,
`none` standing for `-1`. -/
def Index : List Char → List Char → Option Nat
  | [], sub => if sub.isEmpty then some 0 else none
  | c :: s, sub =>
    if HasPrefix (c :: s) sub then some 0
    else (Index s sub).map (· + 1)

/-- Go `strings.Contains(s, sub)`, which is `Index(s, sub) >= 0`. -/
def Contains (s sub : List Char) : Bool := (Index s sub).isSome

/-- The loop of Go `strings.Split` (`genSplit` with `sepSave = 0`, `n = -1`) for a
non-empty separator: cut at the first occurrence of `sep`, continue after it.  The
first argument bounds the number of cuts, as `n = Count(s, sep) + 1` does in Go. -/
def genSplit : Nat → List Char → List Char → List (List Char)
  | 0, s, _ => [s]
  | n + 1, s, sep =>
    match Index s sep with
    | none => [s]
    | some m => s.take m :: genSplit n (s.drop (m + sep.length)) sep

/-- Go `strings.Split(s, sep)` for a non-empty separator `sep`. -/
def Split (s sep : List Char) : List (List Char) := genSplit s.length s sep

/-- The `Err` field of a `*strconv.NumError`. -/
inductive NumErr where
  | ErrSyntax
  | ErrRange
  deriving DecidableEq, Repr

/-- The digit value that `strconv.ParseUint` gives a byte in base 10: only the
characters `0` to `9` are digits below the base. -/
def digitVal (c : Char) : Option Nat :=
  if 48 ≤ c.toNat ∧ c.toNat ≤ 57 then some (c.toNat - 48) else none

/-- The loop of `strconv.ParseUint(s, 10, 64)` from accumulator `n`:
`cutoff = maxUint64/10 + 1`, `maxVal = 1<<64 - 1`. -/
def parseUintLoop : Nat → List Char → Except NumErr Nat
  | n, [] => .ok n
  | n, c :: cs =>
    match digitVal c with
    | none => .error .ErrSyntax
    | some d =>
      if n ≥ (2 ^ 64 - 1) / 10 + 1 then .error .ErrRange
      else
        let n10 := n * 10
        let n1 := (n10 + d) % 2 ^ 64
        if n1 < n10 ∨ n1 > 2 ^ 64 - 1 then .error .ErrRange
        else parseUintLoop n1 cs

/-- Go `strconv.ParseUint(s, 10, 64)`. -/
def ParseUint (s : List Char) : Except NumErr Nat :=
  if s.isEmpty then .error .ErrSyntax else parseUintLoop 0 s

/-- Go `strconv.ParseInt(s, 10, 64)`: an optional sign, then `ParseUint`, then the
signed range check with `cutoff = 1 << 63`. -/
def ParseInt (s : List Char) : Except NumErr Int :=
  match s with
  | [] => .error .ErrSyntax
  | c :: cs =>
    let neg := c == '-'
    let body := if c == '+' ∨ c == '-' then cs else c :: cs
    match ParseUint body with
    | .error e => .error e
    | .ok un =>
      if ¬ neg ∧ un ≥ 2 ^ 63 then .error .ErrRange
      else if neg ∧ un > 2 ^ 63 then .error .ErrRange
      else .ok (if neg then - (un : Int) else (un : Int))

/-! ## Regular expressions -/

/-- How often an item of a pattern repeats: once, `+` (greedy) or `+?` (lazy). -/
inductive Quant where
  | one
  | plus
  | plusLazy
  deriving DecidableEq

/-- One item of a pattern: a character class, its repetition, and whether a capture
group surrounds it. -/
structure Atom where
  cls : Char → Bool
  quant : Quant
  capture : Bool

/-- A pattern: whether it starts with `^`, and its items in order. -/
structure Regexp where
  anchored : Bool
  atoms : List Atom

/-- The class `\w` of Go (RE2): `[0-9A-Za-z_]`. -/
def isWord (c : Char) : Bool :=
  (48 ≤ c.toNat && c.toNat ≤ 57) || (65 ≤ c.toNat && c.toNat ≤ 90) ||
    (97 ≤ c.toNat && c.toNat ≤ 122) || c.toNat == 95

/-- The class `\d` of Go (RE2): `[0-9]`. -/
def isDigit (c : Char) : Bool := 48 ≤ c.toNat && c.toNat ≤ 57

/-- The class `.` without the `s` flag: any character but a line feed. -/
def isDot (c : Char) : Bool := c.toNat != 10

/-- The class of the escaped literal `\/`. -/
def isSlash (c : Char) : Bool := c == '/'

/-- Greedy `x+` by backtracking: after one more character of the class, first try to
take still more, and only then the rest of the pattern `k`, which receives the text
taken so far and the input left. -/
def plusGreedy {α : Type} (p : Char → Bool) (k : List Char → List Char → Option α) :
    List Char → List Char → Option α
  | _, [] => none
  | acc, c :: cs =>
    if p c then
      match plusGreedy p k (acc ++ [c]) cs with
      | some r => some r
      | none => k (acc ++ [c]) cs
    else none

/-- Lazy `x+?` by backtracking: after one more character of the class, first try the
rest of the pattern `k`, and only then to take more. -/
def plusLazy {α : Type} (p : Char → Bool) (k : List Char → List Char → Option α) :
    List Char → List Char → Option α
  | _, [] => none
  | acc, c :: cs =>
    if p c then
      match k (acc ++ [c]) cs with
      | some r => some r
      | none => plusLazy p k (acc ++ [c]) cs
    else none

/-- What the rest of the pattern `next` gives after an item has taken the text `m`:
`m` is put in front of the matched text, and in front of the captures when the item
is a capture group. -/
def withCapture (capture : Bool) (next : List Char → Option (List Char × List (List Char)))
    (m s1 : List Char) : Option (List Char × List (List Char)) :=
  (next s1).map (fun r => (m ++ r.1, if capture then m :: r.2 else r.2))

/-- Match one item at the start of the input and then the rest of the pattern `next`,
by backtracking in priority order. -/
def matchAtom (a : Atom) (next : List Char → Option (List Char × List (List Char)))
    (s : List Char) : Option (List Char × List (List Char)) :=
  match a.quant with
  | .one =>
    match s with
    | [] => none
    | c :: cs => if a.cls c then withCapture a.capture next [c] cs else none
  | .plus => plusGreedy a.cls (withCapture a.capture next) [] s
  | .plusLazy => plusLazy a.cls (withCapture a.capture next) [] s

/-- Match the items at the start of the input, by backtracking in priority order.
The result is the matched text and the texts of the capture groups. -/
def matchHere : List Atom → List Char → Option (List Char × List (List Char))
  | [], _ => some ([], [])
  | a :: rest, s => matchAtom a (matchHere rest) s

/-- The leftmost match of an unanchored pattern: try each start position in turn. -/
def searchFrom (atoms : List Atom) : List Char → Option (List Char × List (List Char))
  | [] => matchHere atoms []
  | c :: cs =>
    match matchHere atoms (c :: cs) with
    | some r => some r
    | none => searchFrom atoms cs

/-- Go `(*Regexp).FindStringSubmatch`: the text of the leftmost match followed by the
texts of its capture groups, or `nil` (the empty slice) when there is no match. -/
def FindStringSubmatch (re : Regexp) (s : List Char) : List (List Char) :=
  match (if re.anchored then matchHere re.atoms s else searchFrom re.atoms s) with
  | none => []
  | some r => r.1 :: r.2

/-! ## The program: data model -/

/-- Go `type Project struct`. -/
structure Project where
  Name : List Char
  Branches : List (List Char)
  deriving DecidableEq

/-- Go `type Buildset struct`. -/
structure Buildset where
  Key : List Char
  Project : List Char
  Branch : List Char
  UnixTimestamp : Int
  Tag : List Char
  deriving DecidableEq

/-- The values of Go's `error` that the code produces or passes on: `errors.New(msg)`,
the `*strconv.NumError` of `ParseInt` (its `Num` and `Err`), and whatever error the
S3 client returned.  A run-time panic, which ends the program instead of returning, is
an outcome of this type too. -/
inductive Error where
  | errorString (msg : List Char)
  | numError (num : List Char) (err : NumErr)
  | awsError (msg : List Char)
  | runtimePanic (msg : List Char)
  deriving DecidableEq

/-- The fields of `s3.ListObjectsV2Input` that the code sets. -/
structure ListObjectsV2Input where
  Bucket : List Char
  Prefix : Option (List Char)
  Delimiter : Option (List Char)
  deriving DecidableEq

/-- The fields of `s3.ListObjectsV2Output` that the code reads: `IsTruncated`, the
`Prefix` of each of the `CommonPrefixes`, and the `Key` of each of the `Contents`. -/
structure ListObjectsV2Output where
  IsTruncated : Bool
  CommonPrefixes : List (List Char)
  Contents : List (List Char)

/-- The S3 service handle, as far as the code uses it: `s3svc.ListObjectsV2`. -/
abbrev S3 := ListObjectsV2Input → Except Error ListObjectsV2Output

/-! ## The program: functions -/

/-- The pattern `(\w+)\/(\w+)\/(\w+)`, the global `reBuildset` that `parseBuildset`
compiles on its first call. -/
def reBuildset : Regexp :=
  { anchored := false
    atoms := [⟨isWord, .plus, true⟩, ⟨isSlash, .one, false⟩, ⟨isWord, .plus, true⟩,
      ⟨isSlash, .one, false⟩, ⟨isWord, .plus, true⟩] }

/-- The pattern `.+\/(\w+)`, the local `re` of `S3ListProjects`. -/
def reBranch : Regexp :=
  { anchored := false
    atoms := [⟨isDot, .plus, false⟩, ⟨isSlash, .one, false⟩, ⟨isWord, .plus, true⟩] }

/-- The pattern `^.+?\/(.+?)\/(\d+)`, the local `re` of
`S3ListLatestBuildsetForProject`. -/
def reLatest : Regexp :=
  { anchored := true
    atoms := [⟨isDot, .plusLazy, false⟩, ⟨isSlash, .one, false⟩, ⟨isDot, .plusLazy, true⟩,
      ⟨isSlash, .one, false⟩, ⟨isDigit, .plus, true⟩] }

/-- Go `parseBuildset`. -/
def parseBuildset (str : List Char) : Option Buildset :=
  match FindStringSubmatch reBuildset str with
  | [_, m1, m2, m3] =>
    match Split m3 ['_', '_'] with
    | [sub0, sub1] =>
      match ParseInt sub0 with
      | .error _ => none
      | .ok unixTimestamp =>
        some { Key := str, Project := m1, Branch := m2, UnixTimestamp := unixTimestamp,
               Tag := sub1 }
    | _ => none
  | _ => none

/-- The inner loop of `S3ListProjects` over the branch prefixes of one project. -/
def branchLoop : List (List Char) → List (List Char) → List (List Char)
  | branches, [] => branches
  | branches, branch :: rest =>
    match FindStringSubmatch reBranch branch with
    | [_, m1] => branchLoop (branches ++ [m1]) rest
    | _ => branchLoop branches rest

/-- The outer loop of `S3ListProjects` over the top-level prefixes.  The project name
is the prefix without its last byte, `(*prefix.Prefix)[:len(*prefix.Prefix)-1]`, which
panics on an empty prefix; the model drops the last character, which is the same
when that character is ASCII, as the delimiter `/` is. -/
def projectLoop (s3svc : S3) (s3bucket : List Char) :
    List Project → List (List Char) → Except Error (List Project)
  | projects, [] => .ok projects
  | projects, pfx :: rest =>
    if pfx.isEmpty then
      .error (.runtimePanic "runtime error: slice bounds out of range [:-1]".toList)
    else
    let projectName := pfx.dropLast
    match s3svc { Bucket := s3bucket, Prefix := some pfx, Delimiter := some ['/'] } with
    | .error err => .error err
    | .ok respBranch =>
      projectLoop s3svc s3bucket
        (projects ++ [{ Name := projectName, Branches := branchLoop [] respBranch.CommonPrefixes }])
        rest

/-- Go `S3ListProjects`. -/
def S3ListProjects (s3svc : S3) (s3bucket : List Char) : Except Error (List Project) :=
  match s3svc { Bucket := s3bucket, Prefix := none, Delimiter := some ['/'] } with
  | .error err => .error err
  | .ok resp =>
    if resp.IsTruncated then
      .error (.errorString "Truncated response in S3ListProjects()".toList)
    else projectLoop s3svc s3bucket [] resp.CommonPrefixes

/-- The loop of `S3ListLatestBuildsetForProject`, from the current
`newestBuildsetTimestamp` and `newestBuildsetPtr`. -/
def latestLoop (branch : List Char) :
    Int → Option (List Char) → List (List Char) → Except Error (Int × Option (List Char))
  | ts, ptr, [] => .ok (ts, ptr)
  | ts, ptr, pfx :: rest =>
    match FindStringSubmatch reLatest pfx with
    | [_, matchBranch, matchTimestamp] =>
      if matchBranch ≠ branch then latestLoop branch ts ptr rest
      else
        match ParseInt matchTimestamp with
        | .error e => .error (.numError matchTimestamp e)
        | .ok unixTimestamp =>
          if unixTimestamp > ts then latestLoop branch unixTimestamp (some pfx) rest
          else latestLoop branch ts ptr rest
    | _ => latestLoop branch ts ptr rest

/-- Go `S3ListLatestBuildsetForProject`. -/
def S3ListLatestBuildsetForProject (s3svc : S3) (project branch s3bucket : List Char) :
    Except Error Buildset :=
  let pfx := project ++ ['/'] ++ branch ++ ['/']
  match s3svc { Bucket := s3bucket, Prefix := some pfx, Delimiter := some ['/'] } with
  | .error err => .error err
  | .ok respBuildSets =>
    if respBuildSets.IsTruncated then
      .error (.errorString "Truncated response in S3GetLatestBuildsetForProject()".toList)
    else
      match latestLoop branch (-(2 : Int) ^ 63) none respBuildSets.CommonPrefixes with
      | .error err => .error err
      | .ok (_, none) => .error (.errorString "No matching buildset".toList)
      | .ok (_, some newestBuildset) =>
        match parseBuildset newestBuildset with
        | none =>
          .error (.errorString
            ("Could not parse '".toList ++ newestBuildset ++ "' as Buildset".toList))
        | some buildset => .ok buildset

/-- The loop of `S3ListArchiveForBuildset` over the keys of the listing. -/
def archiveLoop (os arch : List Char) : List (List Char) → Option (List Char)
  | [] => none
  | key :: rest =>
    if Contains key os && Contains key arch then some key
    else archiveLoop os arch rest

/-- Go `S3ListArchiveForBuildset`. -/
def S3ListArchiveForBuildset (s3svc : S3) (buildset os arch s3bucket : List Char) :
    Except Error (List Char) :=
  match s3svc { Bucket := s3bucket, Prefix := some buildset, Delimiter := some ['/'] } with
  | .error err => .error err
  | .ok respArchive =>
    match archiveLoop os arch respArchive.Contents with
    | some key => .ok key
    | none =>
      .error (.errorString
        ("No matching archive found for '".toList ++ os ++ "', '".toList ++ arch ++ "'".toList))

/-! ## Vocabulary of the statements

The definitions of this section are not functions of the source: the theorems use them
to say what the code does. -/

/-- The value of a string of decimal digits read after the digits of value `n`. -/
def decValFrom : Nat → List Char → Nat
  | n, [] => n
  | n, c :: cs => decValFrom (n * 10 + (c.toNat - 48)) cs

/-- The value of a string of decimal digits. -/
def decVal (s : List Char) : Nat := decValFrom 0 s

/-- A non-empty string of decimal digits. -/
def isDigits (ds : List Char) : Bool := !ds.isEmpty && ds.all isDigit

/-- A base-10 literal of a signed 64-bit integer, as `strconv.ParseInt(s, 10, 64)`
documents it: an optional sign and one or more decimal digits, of a value between
`-2^63` and `2^63 - 1`. -/
def isInt64Literal (s : List Char) : Bool :=
  match s with
  | [] => false
  | c :: cs =>
    if c = '+' then isDigits cs && decide (decVal cs < 2 ^ 63)
    else if c = '-' then isDigits cs && decide (decVal cs ≤ 2 ^ 63)
    else isDigits (c :: cs) && decide (decVal (c :: cs) < 2 ^ 63)

/-- The texts that a list of items matches, whatever the priorities: each item takes a
non-empty text of its class, a single character when it is not repeated, and the
capture groups record the text of their item. -/
inductive Shape : List Atom → List Char → List (List Char) → Prop
  | nil : Shape [] [] []
  | cons (a : Atom) (rest : List Atom) (m w : List Char) (caps : List (List Char)) :
      m ≠ [] → (∀ c ∈ m, a.cls c = true) → (a.quant = .one → m.length = 1) →
      Shape rest w caps →
      Shape (a :: rest) (m ++ w) (if a.capture then m :: caps else caps)

/-- The input contains three non-empty runs of word characters joined by single
slashes. -/
def HasThreeSegments (s : List Char) : Prop :=
  ∃ pre g1 g2 g3 post, g1 ≠ [] ∧ (∀ c ∈ g1, isWord c = true) ∧ g2 ≠ [] ∧
    (∀ c ∈ g2, isWord c = true) ∧ g3 ≠ [] ∧ (∀ c ∈ g3, isWord c = true) ∧
    s = pre ++ g1 ++ ['/'] ++ g2 ++ ['/'] ++ g3 ++ post

/-- What one turn of the loop of `S3ListLatestBuildsetForProject` extracts from a prefix:
the digit run, when the loose pattern matches and the extracted branch is the requested
one (the prefix is a candidate), and nothing otherwise (the loop continues). -/
def looseDigits (branch pfx : List Char) : Option (List Char) :=
  match FindStringSubmatch reLatest pfx with
  | [_, matchBranch, matchTimestamp] =>
    if matchBranch ≠ branch then none else some matchTimestamp
  | _ => none

/-! ## Lemmas: strings -/

theorem hasPrefix_iff (s sub : List Char) : HasPrefix s sub = true ↔ sub <+: s := by
  induction s generalizing sub with
  | nil => cases sub <;> simp [HasPrefix]
  | cons c s ih =>
    cases sub with
    | nil => simp [HasPrefix]
    | cons d sub =>
      simp only [HasPrefix, Bool.and_eq_true, beq_iff_eq, ih, List.cons_prefix_cons]
      constructor
      · rintro ⟨h1, h2⟩; exact ⟨h1.symm, h2⟩
      · rintro ⟨h1, h2⟩; exact ⟨h1.symm, h2⟩

theorem index_none_iff (s sub : List Char) : Index s sub = none ↔ ¬ sub <:+: s := by
  induction s with
  | nil =>
    cases sub <;> simp [Index]
  | cons c s ih =>
    unfold Index
    by_cases h : HasPrefix (c :: s) sub = true
    · simp only [h, if_true]
      have := (hasPrefix_iff _ _).1 h
      simp [this.isInfix]
    · have h' : ¬ sub <+: c :: s := fun hp => h ((hasPrefix_iff _ _).2 hp)
      simp only [h, Option.map_eq_none', List.infix_cons_iff, h', false_or]
      simpa using ih

theorem contains_iff (s sub : List Char) : Contains s sub = true ↔ sub <:+: s := by
  unfold Contains
  rw [← not_iff_not, ← index_none_iff]
  cases Index s sub <;> simp

/-! ## Lemmas: the backtracking matcher -/

section Plus
variable {α : Type}

theorem plusGreedy_none_iff (p : Char → Bool) (k : List Char → List Char → Option α)
    (acc s : List Char) :
    plusGreedy p k acc s = none ↔
      ∀ m s1, m ≠ [] → (∀ c ∈ m, p c = true) → s = m ++ s1 → k (acc ++ m) s1 = none := by
  induction s generalizing acc with
  | nil =>
    simp only [plusGreedy, true_iff]
    intro m s1 hm _ h
    cases m with
    | nil => exact absurd rfl hm
    | cons c m => simp at h
  | cons c cs ih =>
    unfold plusGreedy
    by_cases hc : p c = true
    · simp only [hc, if_true]
      constructor
      · intro h m s1 hm hp hs
        have hrec : plusGreedy p k (acc ++ [c]) cs = none := by
          cases hr : plusGreedy p k (acc ++ [c]) cs with
          | none => rfl
          | some r => simp [hr] at h
        have hk : k (acc ++ [c]) cs = none := by simpa [hrec] using h
        cases m with
        | nil => exact absurd rfl hm
        | cons d m =>
          simp only [List.cons_append, List.cons.injEq] at hs
          obtain ⟨rfl, rfl⟩ := hs
          cases m with
          | nil => simpa using hk
          | cons e m =>
            have := (ih (acc ++ [c])).1 hrec (e :: m) s1 (by simp)
              (fun x hx => hp x (List.mem_cons_of_mem _ hx)) rfl
            simpa using this
      · intro h
        have hrec : plusGreedy p k (acc ++ [c]) cs = none := by
          rw [ih]
          intro m s1 hm hp hs
          have := h (c :: m) s1 (by simp)
            (by intro x hx; rcases List.mem_cons.1 hx with rfl | hx; exact hc; exact hp x hx)
            (by simp [hs])
          simpa using this
        have hk : k (acc ++ [c]) cs = none := h [c] cs (by simp) (by simpa using hc) rfl
        simp [hrec, hk]
    · simp only [hc]
      simp only [Bool.false_eq_true, if_false, true_iff]
      intro m s1 hm hp hs
      cases m with
      | nil => exact absurd rfl hm
      | cons d m =>
        simp only [List.cons_append, List.cons.injEq] at hs
        obtain ⟨rfl, rfl⟩ := hs
        exact absurd (hp c (List.mem_cons_self _ _)) hc

theorem plusLazy_none_iff (p : Char → Bool) (k : List Char → List Char → Option α)
    (acc s : List Char) :
    plusLazy p k acc s = none ↔
      ∀ m s1, m ≠ [] → (∀ c ∈ m, p c = true) → s = m ++ s1 → k (acc ++ m) s1 = none := by
  induction s generalizing acc with
  | nil =>
    simp only [plusLazy, true_iff]
    intro m s1 hm _ h
    cases m with
    | nil => exact absurd rfl hm
    | cons c m => simp at h
  | cons c cs ih =>
    unfold plusLazy
    by_cases hc : p c = true
    · simp only [hc, if_true]
      constructor
      · intro h m s1 hm hp hs
        have hk : k (acc ++ [c]) cs = none := by
          cases hr : k (acc ++ [c]) cs with
          | none => rfl
          | some r => simp [hr] at h
        have hrec : plusLazy p k (acc ++ [c]) cs = none := by simpa [hk] using h
        cases m with
        | nil => exact absurd rfl hm
        | cons d m =>
          simp only [List.cons_append, List.cons.injEq] at hs
          obtain ⟨rfl, rfl⟩ := hs
          cases m with
          | nil => simpa using hk
          | cons e m =>
            have := (ih (acc ++ [c])).1 hrec (e :: m) s1 (by simp)
              (fun x hx => hp x (List.mem_cons_of_mem _ hx)) rfl
            simpa using this
      · intro h
        have hrec : plusLazy p k (acc ++ [c]) cs = none := by
          rw [ih]
          intro m s1 hm hp hs
          have := h (c :: m) s1 (by simp)
            (by intro x hx; rcases List.mem_cons.1 hx with rfl | hx; exact hc; exact hp x hx)
            (by simp [hs])
          simpa using this
        have hk : k (acc ++ [c]) cs = none := h [c] cs (by simp) (by simpa using hc) rfl
        simp [hrec, hk]
    · simp only [hc]
      simp only [Bool.false_eq_true, if_false, true_iff]
      intro m s1 hm hp hs
      cases m with
      | nil => exact absurd rfl hm
      | cons d m =>
        simp only [List.cons_append, List.cons.injEq] at hs
        obtain ⟨rfl, rfl⟩ := hs
        exact absurd (hp c (List.mem_cons_self _ _)) hc

/-- A successful greedy repetition took some non-empty text of the class, the rest of
the pattern accepted it, and the rest accepted no longer text. -/
theorem plusGreedy_some (p : Char → Bool) (k : List Char → List Char → Option α)
    (acc s : List Char) (r : α) (h : plusGreedy p k acc s = some r) :
    ∃ m s1, m ≠ [] ∧ (∀ c ∈ m, p c = true) ∧ s = m ++ s1 ∧ k (acc ++ m) s1 = some r ∧
      ∀ m2 s2, m2 ≠ [] → (∀ c ∈ m2, p c = true) → s1 = m2 ++ s2 →
        k (acc ++ m ++ m2) s2 = none := by
  induction s generalizing acc with
  | nil => simp [plusGreedy] at h
  | cons c cs ih =>
    unfold plusGreedy at h
    by_cases hc : p c = true
    · simp only [hc, if_true] at h
      cases hr : plusGreedy p k (acc ++ [c]) cs with
      | some r1 =>
        simp only [hr, Option.some.injEq] at h
        subst h
        obtain ⟨m, s1, hm, hp, hs, hk, hmax⟩ := ih (acc ++ [c]) hr
        refine ⟨c :: m, s1, by simp, ?_, by simp [hs], by simpa using hk, ?_⟩
        · intro x hx
          rcases List.mem_cons.1 hx with rfl | hx
          · exact hc
          · exact hp x hx
        · intro m2 s2 hm2 hp2 hs2
          simpa using hmax m2 s2 hm2 hp2 hs2
      | none =>
        simp only [hr] at h
        refine ⟨[c], cs, by simp, by simpa using hc, rfl, h, ?_⟩
        exact (plusGreedy_none_iff p k (acc ++ [c]) cs).1 hr
    · simp [hc] at h

/-- A successful lazy repetition took some non-empty text of the class, the rest of
the pattern accepted it, and the rest accepted no shorter text. -/
theorem plusLazy_some (p : Char → Bool) (k : List Char → List Char → Option α)
    (acc s : List Char) (r : α) (h : plusLazy p k acc s = some r) :
    ∃ m s1, m ≠ [] ∧ (∀ c ∈ m, p c = true) ∧ s = m ++ s1 ∧ k (acc ++ m) s1 = some r ∧
      ∀ m1 m2, m1 ≠ [] → m2 ≠ [] → m = m1 ++ m2 → k (acc ++ m1) (m2 ++ s1) = none := by
  induction s generalizing acc with
  | nil => simp [plusLazy] at h
  | cons c cs ih =>
    unfold plusLazy at h
    by_cases hc : p c = true
    · simp only [hc, if_true] at h
      cases hk : k (acc ++ [c]) cs with
      | some r1 =>
        simp only [hk, Option.some.injEq] at h
        subst h
        refine ⟨[c], cs, by simp, by simpa using hc, rfl, hk, ?_⟩
        intro m1 m2 hm1 hm2 hm
        cases m1 with
        | nil => exact absurd rfl hm1
        | cons d m1 =>
          cases m1 with
          | nil =>
            cases m2 with
            | nil => exact absurd rfl hm2
            | cons e m2 => simp at hm
          | cons e m1 => simp at hm
      | none =>
        simp only [hk] at h
        obtain ⟨m, s1, hm, hp, hs, hk1, hmin⟩ := ih (acc ++ [c]) h
        refine ⟨c :: m, s1, by simp, ?_, by simp [hs], by simpa using hk1, ?_⟩
        · intro x hx
          rcases List.mem_cons.1 hx with rfl | hx
          · exact hc
          · exact hp x hx
        · intro m1 m2 hm1 hm2 hmm
          cases m1 with
          | nil => exact absurd rfl hm1
          | cons d m1 =>
            simp only [List.cons_append, List.cons.injEq] at hmm
            obtain ⟨rfl, rfl⟩ := hmm
            cases m1 with
            | nil =>
              simp only [List.nil_append] at hs ⊢
              rw [← hs]; exact hk
            | cons e m1 =>
              have := hmin (e :: m1) m2 (by simp) hm2 rfl
              simpa using this
    · simp [hc] at h

/-- Greedy repetition over a run of the class that the input ends or a character
outside the class stops: if the rest of the pattern accepts the whole run, that is
the result. -/
theorem plusGreedy_run (p : Char → Bool) (k : List Char → List Char → Option α)
    (acc m s1 : List Char) (r : α) (hm : m ≠ []) (hp : ∀ c ∈ m, p c = true)
    (hstop : ∀ c s2, s1 = c :: s2 → p c = false) (hk : k (acc ++ m) s1 = some r) :
    plusGreedy p k acc (m ++ s1) = some r := by
  induction m generalizing acc with
  | nil => exact absurd rfl hm
  | cons c m ih =>
    have hc : p c = true := hp c (List.mem_cons_self _ _)
    simp only [List.cons_append]
    unfold plusGreedy
    simp only [hc, if_true]
    cases m with
    | nil =>
      have hnone : plusGreedy p k (acc ++ [c]) s1 = none := by
        cases s1 with
        | nil => rfl
        | cons d s2 =>
          unfold plusGreedy
          simp [hstop d s2 rfl]
      simp only [List.nil_append, hnone]
      exact hk
    | cons d m =>
      have := ih (acc ++ [c]) (by simp) (fun x hx => hp x (List.mem_cons_of_mem _ hx))
        (by simpa using hk)
      simp only [this]

end Plus

theorem withCapture_some (capture : Bool)
    (next : List Char → Option (List Char × List (List Char))) (m s1 : List Char)
    (r : List Char × List (List Char)) :
    withCapture capture next m s1 = some r ↔
      ∃ r1, next s1 = some r1 ∧ r = (m ++ r1.1, if capture then m :: r1.2 else r1.2) := by
  unfold withCapture
  cases next s1 with
  | none => simp
  | some r1 =>
    simp only [Option.map_some', Option.some.injEq, exists_eq_left']
    exact eq_comm

theorem withCapture_none (capture : Bool)
    (next : List Char → Option (List Char × List (List Char))) (m s1 : List Char) :
    withCapture capture next m s1 = none ↔ next s1 = none := by
  unfold withCapture
  cases next s1 <;> simp

theorem shape_nil_inv {w : List Char} {caps : List (List Char)} (h : Shape [] w caps) :
    w = [] ∧ caps = [] := by
  cases h; exact ⟨rfl, rfl⟩

theorem shape_cons_inv {a : Atom} {rest : List Atom} {w : List Char} {caps : List (List Char)}
    (h : Shape (a :: rest) w caps) :
    ∃ m w1 caps1, m ≠ [] ∧ (∀ c ∈ m, a.cls c = true) ∧ (a.quant = .one → m.length = 1) ∧
      Shape rest w1 caps1 ∧ w = m ++ w1 ∧ caps = if a.capture then m :: caps1 else caps1 := by
  cases h with
  | cons _ _ m w1 caps1 h1 h2 h3 h4 => exact ⟨m, w1, caps1, h1, h2, h3, h4, rfl, rfl⟩

/-- Soundness of the matcher: a result is a text of the pattern's shape at the start of
the input. -/
theorem matchHere_sound (atoms : List Atom) (s : List Char) (r : List Char × List (List Char))
    (h : matchHere atoms s = some r) : Shape atoms r.1 r.2 ∧ r.1 <+: s := by
  induction atoms generalizing s r with
  | nil =>
    simp only [matchHere, Option.some.injEq] at h
    subst h
    exact ⟨Shape.nil, List.nil_prefix⟩
  | cons a rest ih =>
    have key : ∀ m s1, m ≠ [] → (∀ c ∈ m, a.cls c = true) → (a.quant = .one → m.length = 1) →
        s = m ++ s1 → withCapture a.capture (matchHere rest) m s1 = some r →
        Shape (a :: rest) r.1 r.2 ∧ r.1 <+: s := by
      intro m s1 hm hp hq hs hk
      obtain ⟨r1, hr1, rfl⟩ := (withCapture_some _ _ _ _ _).1 hk
      obtain ⟨hshape, hpre⟩ := ih s1 r1 hr1
      refine ⟨Shape.cons a rest m r1.1 r1.2 hm hp hq hshape, ?_⟩
      rw [hs]
      exact (List.prefix_append_right_inj m).2 hpre
    simp only [matchHere, matchAtom] at h
    cases hq : a.quant with
    | one =>
      simp only [hq] at h
      cases s with
      | nil => simp at h
      | cons c cs =>
        by_cases hc : a.cls c = true
        · simp only [hc, if_true] at h
          exact key [c] cs (by simp) (by simpa using hc) (fun _ => rfl) rfl h
        · simp [hc] at h
    | plus =>
      simp only [hq] at h
      obtain ⟨m, s1, hm, hp, hs, hk, _⟩ := plusGreedy_some _ _ _ _ _ h
      exact key m s1 hm hp (by simp [hq]) hs (by simpa using hk)
    | plusLazy =>
      simp only [hq] at h
      obtain ⟨m, s1, hm, hp, hs, hk, _⟩ := plusLazy_some _ _ _ _ _ h
      exact key m s1 hm hp (by simp [hq]) hs (by simpa using hk)

/-- Completeness of the matcher: when some text of the pattern's shape starts the input,
the matcher finds a match. -/
theorem matchHere_complete (atoms : List Atom) (w : List Char) (caps : List (List Char))
    (h : Shape atoms w caps) (t : List Char) : matchHere atoms (w ++ t) ≠ none := by
  induction h generalizing t with
  | nil => simp [matchHere]
  | cons a rest m w caps hm hp hq _ ih =>
    have hk : withCapture a.capture (matchHere rest) m (w ++ t) ≠ none := by
      rw [Ne, withCapture_none]
      exact ih t
    simp only [matchHere, matchAtom]
    cases hquant : a.quant with
    | one =>
      have hlen := hq hquant
      match m, hlen, hp, hk with
      | [c], _, hp, hk =>
        have hc : a.cls c = true := hp c (List.mem_singleton_self c)
        simpa [hc] using hk
    | plus =>
      simp only
      intro hnone
      have := (plusGreedy_none_iff _ _ _ _).1 hnone m (w ++ t) hm hp (by simp)
      exact hk (by simpa using this)
    | plusLazy =>
      simp only
      intro hnone
      have := (plusLazy_none_iff _ _ _ _).1 hnone m (w ++ t) hm hp (by simp)
      exact hk (by simpa using this)

theorem searchFrom_sound (atoms : List Atom) (s : List Char) (r : List Char × List (List Char))
    (h : searchFrom atoms s = some r) :
    Shape atoms r.1 r.2 ∧ ∃ pre post, s = pre ++ r.1 ++ post := by
  induction s with
  | nil =>
    simp only [searchFrom] at h
    obtain ⟨h1, h2⟩ := matchHere_sound _ _ _ h
    obtain ⟨t, ht⟩ := h2
    exact ⟨h1, [], t, by simpa using ht.symm⟩
  | cons c cs ih =>
    unfold searchFrom at h
    cases hm : matchHere atoms (c :: cs) with
    | some r1 =>
      simp only [hm, Option.some.injEq] at h
      subst h
      obtain ⟨h1, h2⟩ := matchHere_sound _ _ _ hm
      obtain ⟨t, ht⟩ := h2
      exact ⟨h1, [], t, by simpa using ht.symm⟩
    | none =>
      simp only [hm] at h
      obtain ⟨h1, pre, post, h2⟩ := ih h
      exact ⟨h1, c :: pre, post, by simp [h2]⟩

theorem searchFrom_of_matchHere (atoms : List Atom) (s : List Char)
    (r : List Char × List (List Char)) (h : matchHere atoms s = some r) :
    searchFrom atoms s = some r := by
  cases s with
  | nil => simpa [searchFrom] using h
  | cons c cs => simp [searchFrom, h]

/-! ## Lemmas: `strconv.ParseInt` -/

theorem digitVal_of_isDigit {c : Char} (h : isDigit c = true) :
    digitVal c = some (c.toNat - 48) := by
  unfold isDigit at h
  simp only [Bool.and_eq_true, decide_eq_true_eq] at h
  simp [digitVal, h]

theorem digitVal_some {c : Char} {d : Nat} (h : digitVal c = some d) :
    isDigit c = true ∧ d = c.toNat - 48 := by
  unfold digitVal at h
  split at h
  · rename_i hc
    simp only [Option.some.injEq] at h
    exact ⟨by simp [isDigit, hc], h.symm⟩
  · simp at h

theorem le_decValFrom (n : Nat) (cs : List Char) : n ≤ decValFrom n cs := by
  induction cs generalizing n with
  | nil => exact Nat.le_refl _
  | cons c cs ih =>
    show n ≤ decValFrom (n * 10 + (c.toNat - 48)) cs
    exact Nat.le_trans (by omega) (ih _)

theorem parseUintLoop_digits (n : Nat) (cs : List Char) (hn : n < 2 ^ 64)
    (h : ∀ c ∈ cs, isDigit c = true) :
    parseUintLoop n cs =
      if decValFrom n cs < 2 ^ 64 then .ok (decValFrom n cs) else .error .ErrRange := by
  induction cs generalizing n with
  | nil =>
    show Except.ok n = _
    rw [show decValFrom n [] = n from rfl, if_pos hn]
  | cons c cs ih =>
    have hc : isDigit c = true := h c (List.mem_cons_self _ _)
    have hd : c.toNat - 48 ≤ 9 := by
      unfold isDigit at hc
      simp only [Bool.and_eq_true, decide_eq_true_eq] at hc
      omega
    have hle := le_decValFrom (n * 10 + (c.toNat - 48)) cs
    simp only [parseUintLoop, digitVal_of_isDigit hc]
    rw [show decValFrom n (c :: cs) = decValFrom (n * 10 + (c.toNat - 48)) cs from rfl]
    by_cases hcut : n ≥ (2 ^ 64 - 1) / 10 + 1
    · have : ¬ decValFrom (n * 10 + (c.toNat - 48)) cs < 2 ^ 64 := by
        norm_num at hcut ⊢
        omega
      rw [if_pos hcut, if_neg this]
    · rw [if_neg hcut]
      by_cases hov : n * 10 + (c.toNat - 48) < 2 ^ 64
      · have hmod : (n * 10 + (c.toNat - 48)) % 2 ^ 64 = n * 10 + (c.toNat - 48) :=
          Nat.mod_eq_of_lt hov
        have hno : ¬ ((n * 10 + (c.toNat - 48)) % 2 ^ 64 < n * 10 ∨
            (n * 10 + (c.toNat - 48)) % 2 ^ 64 > 2 ^ 64 - 1) := by
          rw [hmod]
          norm_num at hov ⊢
          omega
        rw [if_neg hno, hmod]
        exact ih _ hov (fun x hx => h x (List.mem_cons_of_mem _ hx))
      · have hyes : (n * 10 + (c.toNat - 48)) % 2 ^ 64 < n * 10 ∨
            (n * 10 + (c.toNat - 48)) % 2 ^ 64 > 2 ^ 64 - 1 := by
          left
          norm_num at hcut hov ⊢
          omega
        have : ¬ decValFrom (n * 10 + (c.toNat - 48)) cs < 2 ^ 64 := by
          norm_num at hov ⊢
          omega
        rw [if_pos hyes, if_neg this]

theorem parseUintLoop_ok (n : Nat) (cs : List Char) (v : Nat)
    (h : parseUintLoop n cs = .ok v) : ∀ c ∈ cs, isDigit c = true := by
  induction cs generalizing n with
  | nil => simp
  | cons c cs ih =>
    simp only [parseUintLoop] at h
    cases hd : digitVal c with
    | none => simp [hd] at h
    | some d =>
      simp only [hd] at h
      split at h
      · simp at h
      · split at h
        · simp at h
        · intro x hx
          rcases List.mem_cons.1 hx with rfl | hx
          · exact (digitVal_some hd).1
          · exact ih _ h x hx

/-- `ParseUint` on a non-empty string of digits. -/
theorem parseUint_digits (s : List Char) (hs : s ≠ []) (h : ∀ c ∈ s, isDigit c = true) :
    ParseUint s = if decVal s < 2 ^ 64 then .ok (decVal s) else .error .ErrRange := by
  unfold ParseUint decVal
  have : s.isEmpty = false := by cases s <;> simp_all
  simp only [this, Bool.false_eq_true, if_false]
  exact parseUintLoop_digits 0 s (by norm_num) h

theorem parseUint_ok (s : List Char) (v : Nat) (h : ParseUint s = .ok v) :
    s ≠ [] ∧ (∀ c ∈ s, isDigit c = true) ∧ v = decVal s ∧ decVal s < 2 ^ 64 := by
  unfold ParseUint at h
  cases s with
  | nil => simp at h
  | cons c cs =>
    simp only [List.isEmpty_cons, Bool.false_eq_true, if_false] at h
    have hd := parseUintLoop_ok _ _ _ h
    have := parseUintLoop_digits 0 (c :: cs) (by norm_num) hd
    rw [h] at this
    refine ⟨by simp, hd, ?_⟩
    unfold decVal
    split at this
    · rename_i hlt
      simp only [Except.ok.injEq] at this
      exact ⟨this, hlt⟩
    · simp at this

theorem isDigit_ne_sign {c : Char} (h : isDigit c = true) : ¬ (c = '+' ∨ c = '-') := by
  rintro (rfl | rfl) <;> simp [isDigit] at h

theorem isWord_ne_sign {c : Char} (h : isWord c = true) : ¬ (c = '+' ∨ c = '-') := by
  rintro (rfl | rfl) <;> simp [isWord] at h

theorem isWord_of_isDigit {c : Char} (h : isDigit c = true) : isWord c = true := by
  unfold isDigit at h
  simp [isWord, h]

/-- `ParseInt` on a string that does not start with a sign is `ParseUint` with the bound
`1 << 63`. -/
theorem parseInt_unsigned (c : Char) (cs : List Char) (hc : ¬ (c = '+' ∨ c = '-')) :
    ParseInt (c :: cs) =
      match ParseUint (c :: cs) with
      | .error e => .error e
      | .ok un => if un ≥ 2 ^ 63 then .error .ErrRange else .ok (un : Int) := by
  have h1 : (c == '-') = false := by
    simp only [beq_eq_false_iff_ne, ne_eq]
    exact fun h => hc (Or.inr h)
  have h2 : (c == '+') = false := by
    simp only [beq_eq_false_iff_ne, ne_eq]
    exact fun h => hc (Or.inl h)
  simp only [ParseInt, h1, h2, Bool.false_eq_true, or_self, if_false, not_false_eq_true,
    true_and, false_and]

/-- `ParseInt` on a non-empty string of digits: its value when below `2^63`, and a
range error otherwise. -/
theorem parseInt_digits (s : List Char) (hs : s ≠ []) (h : ∀ c ∈ s, isDigit c = true) :
    ParseInt s = if decVal s < 2 ^ 63 then .ok (decVal s : Int) else .error .ErrRange := by
  cases s with
  | nil => exact absurd rfl hs
  | cons c cs =>
    rw [parseInt_unsigned c cs (isDigit_ne_sign (h c (List.mem_cons_self _ _))),
      parseUint_digits _ hs h]
    by_cases h64 : decVal (c :: cs) < 2 ^ 64
    · rw [if_pos h64]
      by_cases h63 : decVal (c :: cs) < 2 ^ 63
      · have : ¬ decVal (c :: cs) ≥ 2 ^ 63 := by omega
        rw [if_pos h63]
        show (if decVal (c :: cs) ≥ 2 ^ 63 then _ else _) = _
        rw [if_neg this]
      · have : decVal (c :: cs) ≥ 2 ^ 63 := by omega
        rw [if_neg h63]
        show (if decVal (c :: cs) ≥ 2 ^ 63 then _ else _) = _
        rw [if_pos this]
    · have : ¬ decVal (c :: cs) < 2 ^ 63 := by
        norm_num at h64 ⊢
        omega
      rw [if_neg h64, if_neg this]

/-- When `ParseInt` accepts a string of word characters, the string is a non-empty
string of digits and the result is its value, which is non-negative. -/
theorem parseInt_word_ok (s : List Char) (v : Int) (hw : ∀ c ∈ s, isWord c = true)
    (h : ParseInt s = .ok v) :
    s ≠ [] ∧ (∀ c ∈ s, isDigit c = true) ∧ v = (decVal s : Int) ∧ decVal s < 2 ^ 63 := by
  cases s with
  | nil => simp [ParseInt] at h
  | cons c cs =>
    rw [parseInt_unsigned c cs (isWord_ne_sign (hw c (List.mem_cons_self _ _)))] at h
    cases hu : ParseUint (c :: cs) with
    | error e => simp [hu] at h
    | ok un =>
      obtain ⟨h1, h2, h3, _⟩ := parseUint_ok _ _ hu
      simp only [hu] at h
      split at h
      · simp at h
      · rename_i hlt
        simp only [Except.ok.injEq] at h
        subst h3
        exact ⟨h1, h2, h.symm, by omega⟩

/-! ## Lemmas: the decimal digit string of a number -/

theorem decValFrom_concat (n : Nat) (xs : List Char) (c : Char) :
    decValFrom n (xs ++ [c]) = decValFrom n xs * 10 + (c.toNat - 48) := by
  induction xs generalizing n with
  | nil => rfl
  | cons x xs ih => exact ih _

theorem digitChar_digit : ∀ d, d < 10 →
    isDigit (Nat.digitChar d) = true ∧ (Nat.digitChar d).toNat - 48 = d := by
  decide

theorem toDigitsCore_spec (fuel n : Nat) (ds : List Char) (h : n < fuel) :
    ∃ xs, Nat.toDigitsCore 10 fuel n ds = xs ++ ds ∧ xs ≠ [] ∧
      (∀ c ∈ xs, isDigit c = true) ∧ decVal xs = n := by
  induction fuel generalizing n ds with
  | zero => exact absurd h (Nat.not_lt_zero _)
  | succ fuel ih =>
    obtain ⟨hd1, hd2⟩ := digitChar_digit (n % 10) (Nat.mod_lt _ (by norm_num))
    unfold Nat.toDigitsCore
    by_cases h0 : n / 10 = 0
    · simp only [h0, if_true]
      refine ⟨[Nat.digitChar (n % 10)], rfl, by simp, by simpa using hd1, ?_⟩
      show 0 * 10 + ((Nat.digitChar (n % 10)).toNat - 48) = n
      rw [hd2]
      omega
    · simp only [h0, if_false]
      obtain ⟨xs, hxs, _, hdig, hval⟩ := ih (n / 10) (Nat.digitChar (n % 10) :: ds) (by omega)
      refine ⟨xs ++ [Nat.digitChar (n % 10)], by simp [hxs], by simp, ?_, ?_⟩
      · intro c hc
        rcases List.mem_append.1 hc with hc | hc
        · exact hdig c hc
        · rw [List.mem_singleton.1 hc]
          exact hd1
      · unfold decVal at hval ⊢
        rw [decValFrom_concat, hval, hd2]
        omega

/-- The decimal digit string of a number, as `Nat.repr` prints it, is a non-empty string
of digits, and its value is the number. -/
theorem decVal_repr (n : Nat) :
    (Nat.repr n).toList ≠ [] ∧ (∀ c ∈ (Nat.repr n).toList, isDigit c = true) ∧
      decVal (Nat.repr n).toList = n := by
  obtain ⟨xs, hxs, hne, hdig, hval⟩ := toDigitsCore_spec (n + 1) n [] (Nat.lt_succ_self n)
  have : (Nat.repr n).toList = xs := by
    simp only [Nat.repr, Nat.toDigits, hxs, List.append_nil]
    rfl
  rw [this]
  exact ⟨hne, hdig, hval⟩

/-! ## Lemmas: `strings.Index` and `strings.Split` -/

theorem index_some_spec (s sub : List Char) (i : Nat) (h : Index s sub = some i) :
    i ≤ s.length ∧ sub <+: s.drop i := by
  induction s generalizing i with
  | nil =>
    cases sub with
    | nil =>
      simp only [Index, List.isEmpty_nil, if_true, Option.some.injEq] at h
      subst h
      simp
    | cons d sub => simp [Index] at h
  | cons c s ih =>
    unfold Index at h
    by_cases hp : HasPrefix (c :: s) sub = true
    · simp only [hp, if_true, Option.some.injEq] at h
      subst h
      exact ⟨Nat.zero_le _, by simpa using (hasPrefix_iff _ _).1 hp⟩
    · simp only [hp, Bool.false_eq_true, if_false, Option.map_eq_some'] at h
      obtain ⟨j, hj, rfl⟩ := h
      obtain ⟨h1, h2⟩ := ih j hj
      exact ⟨by simpa using h1, by simpa using h2⟩

/-- The first occurrence: when `sep` does not occur in `a` followed by all but the last
character of `sep`, the first occurrence of `sep` in `a ++ sep ++ b` is after `a`. -/
theorem index_first (a b sep : List Char) (h : ¬ sep <:+: a ++ sep.dropLast) :
    Index (a ++ sep ++ b) sep = some a.length := by
  induction a with
  | nil =>
    cases hs : sep ++ b with
    | nil =>
      have : sep = [] := (List.append_eq_nil.1 hs).1
      exact absurd (this ▸ List.nil_infix) h
    | cons c t =>
      have hp : HasPrefix (c :: t) sep = true := by
        rw [hasPrefix_iff, ← hs]
        exact List.prefix_append _ _
      simp [Index, hs, hp]
  | cons c a ih =>
    have hnp : ¬ HasPrefix (c :: (a ++ sep ++ b)) sep = true := by
      rw [hasPrefix_iff]
      intro hp
      apply h
      have h2 : (c :: a) ++ sep.dropLast <+: c :: (a ++ sep ++ b) := by
        have : sep.dropLast <+: sep ++ b :=
          (List.dropLast_prefix sep).trans (List.prefix_append _ _)
        simpa [List.append_assoc] using (List.prefix_append_right_inj (c :: a)).2 this
      have hlen : sep.length ≤ ((c :: a) ++ sep.dropLast).length := by
        simp only [List.length_append, List.length_cons, List.length_dropLast]
        omega
      exact (List.prefix_of_prefix_length_le hp h2 hlen).isInfix
    have hrec : Index (a ++ sep ++ b) sep = some a.length :=
      ih (fun hi => h (by
        simp only [List.cons_append]
        exact List.infix_cons hi))
    have e : (c :: a) ++ sep ++ b = c :: (a ++ sep ++ b) := rfl
    rw [e]
    unfold Index
    rw [if_neg hnp, hrec]
    rfl

theorem genSplit_ne_nil (n : Nat) (s sep : List Char) : genSplit n s sep ≠ [] := by
  cases n with
  | zero => simp [genSplit]
  | succ n =>
    unfold genSplit
    cases Index s sep <;> simp

theorem genSplit_singleton (n : Nat) (s sep y : List Char) (h : genSplit n s sep = [y]) :
    y = s ∧ (n ≠ 0 → ¬ sep <:+: s) := by
  cases n with
  | zero =>
    simp only [genSplit, List.cons.injEq, and_true] at h
    exact ⟨h.symm, fun h0 => absurd rfl h0⟩
  | succ n =>
    unfold genSplit at h
    cases hi : Index s sep with
    | none =>
      simp only [hi, List.cons.injEq, and_true] at h
      exact ⟨h.symm, fun _ => (index_none_iff _ _).1 hi⟩
    | some i =>
      simp only [hi, List.cons.injEq] at h
      exact absurd h.2 (genSplit_ne_nil _ _ _)

/-- Enough fuel: the bound on the number of cuts does not matter once it is at least
the length of the string. -/
theorem genSplit_fuel (sep : List Char) (hsep : sep ≠ []) (n m : Nat) (s : List Char)
    (hn : s.length ≤ n) (hm : s.length ≤ m) : genSplit n s sep = genSplit m s sep := by
  have hnil : ∀ k, genSplit k [] sep = [[]] := by
    intro k
    cases k with
    | zero => rfl
    | succ k =>
      cases sep with
      | nil => exact absurd rfl hsep
      | cons d sep => simp [genSplit, Index]
  induction n generalizing m s with
  | zero =>
    have : s = [] := List.length_eq_zero.1 (Nat.le_zero.1 hn)
    subst this
    rw [hnil, hnil]
  | succ n ih =>
    cases m with
    | zero =>
      have : s = [] := List.length_eq_zero.1 (Nat.le_zero.1 hm)
      subst this
      rw [hnil, hnil]
    | succ m =>
      unfold genSplit
      cases hi : Index s sep with
      | none => rfl
      | some i =>
        have hlen : 0 < sep.length := List.length_pos.2 hsep
        have hd : (s.drop (i + sep.length)).length ≤ s.length - 1 := by
          simp only [List.length_drop]
          omega
        simp only [List.cons.injEq, true_and]
        exact ih m _ (by omega) (by omega)

theorem genSplit_succ_some (n i : Nat) (s sep : List Char) (h : Index s sep = some i) :
    genSplit (n + 1) s sep = s.take i :: genSplit n (s.drop (i + sep.length)) sep := by
  simp only [genSplit, h]

/-- Cutting at the first occurrence of the separator. -/
theorem split_first (a b sep : List Char) (hsep : sep ≠ [])
    (h : ¬ sep <:+: a ++ sep.dropLast) :
    Split (a ++ sep ++ b) sep = a :: Split b sep := by
  have hlen : 0 < sep.length := List.length_pos.2 hsep
  have hl : (a ++ sep ++ b).length = (a.length + sep.length + b.length - 1) + 1 := by
    simp only [List.length_append]
    omega
  have htake : List.take a.length (a ++ sep ++ b) = a := by
    rw [List.append_assoc]
    exact List.take_left' rfl
  have hdrop : List.drop (a.length + sep.length) (a ++ sep ++ b) = b :=
    @List.drop_left' _ (a ++ sep) b (a.length + sep.length) (by simp)
  unfold Split
  rw [hl, genSplit_succ_some _ _ _ _ (index_first a b sep h), htake, hdrop]
  congr 1
  exact genSplit_fuel sep hsep (a.length + sep.length + b.length - 1) b.length b
    (by omega) (Nat.le_refl _)

/-- No occurrence of the separator: one part. -/
theorem split_none (s sep : List Char) (h : ¬ sep <:+: s) : Split s sep = [s] := by
  unfold Split
  cases hl : s.length with
  | zero => rfl
  | succ n =>
    unfold genSplit
    simp [(index_none_iff s sep).2 h]

/-- When `Split` gives exactly two parts, the string is the first part, the separator
and the second part. -/
theorem split_two (s sep x y : List Char) (h : Split s sep = [x, y]) :
    s = x ++ sep ++ y := by
  unfold Split at h
  cases hl : s.length with
  | zero => simp [hl, genSplit] at h
  | succ n =>
    rw [hl] at h
    unfold genSplit at h
    cases hi : Index s sep with
    | none => simp [hi] at h
    | some i =>
      simp only [hi, List.cons.injEq] at h
      obtain ⟨hx, hy⟩ := h
      obtain ⟨hy1, _⟩ := genSplit_singleton _ _ _ _ hy
      obtain ⟨hle, t, ht⟩ := index_some_spec _ _ _ hi
      have h1 : s = s.take i ++ s.drop i := (List.take_append_drop i s).symm
      have h2 : s.drop (i + sep.length) = t := by
        rw [← List.drop_drop, ← ht]
        exact List.drop_left' rfl
      rw [hy1, h2, ← hx, List.append_assoc, ht]
      exact h1

/-! ## Lemmas: one step of the matcher -/

theorem matchHere_one (a : Atom) (rest : List Atom) (c : Char) (cs : List Char)
    (r : List Char × List (List Char)) (hq : a.quant = .one) (hc : a.cls c = true)
    (hr : matchHere rest cs = some r) :
    matchHere (a :: rest) (c :: cs) =
      some (c :: r.1, if a.capture then [c] :: r.2 else r.2) := by
  simp only [matchHere, matchAtom, hq, hc, if_true, withCapture, hr, Option.map_some',
    List.singleton_append]

theorem matchHere_one_none (a : Atom) (rest : List Atom) (s : List Char)
    (hq : a.quant = .one) (h : ∀ c cs, s = c :: cs → a.cls c = false) :
    matchHere (a :: rest) s = none := by
  cases s with
  | nil => simp only [matchHere, matchAtom, hq]
  | cons c cs => simp only [matchHere, matchAtom, hq, h c cs rfl, Bool.false_eq_true, if_false]

theorem matchHere_plus_run (a : Atom) (rest : List Atom) (m s1 : List Char)
    (r : List Char × List (List Char)) (hq : a.quant = .plus) (hm : m ≠ [])
    (hp : ∀ c ∈ m, a.cls c = true) (hstop : ∀ c s2, s1 = c :: s2 → a.cls c = false)
    (hr : matchHere rest s1 = some r) :
    matchHere (a :: rest) (m ++ s1) =
      some (m ++ r.1, if a.capture then m :: r.2 else r.2) := by
  simp only [matchHere, matchAtom, hq]
  apply plusGreedy_run _ _ _ _ _ _ hm hp hstop
  simp only [List.nil_append, withCapture, hr, Option.map_some']

/-! ## Lemmas: character classes -/

theorem isSlash_iff (c : Char) : isSlash c = true ↔ c = '/' := by
  simp [isSlash]

theorem isWord_slash : isWord '/' = false := by decide

theorem isDot_slash : isDot '/' = true := by decide

theorem isDigit_underscore : isDigit '_' = false := by decide

theorem isWord_underscore : isWord '_' = true := by decide

theorem slash_not_mem_of_word {w : List Char} (h : ∀ c ∈ w, isWord c = true) : '/' ∉ w :=
  fun hm => by simpa [isWord_slash] using h '/' hm

/-- A text with no slash before a slash is determined by the whole. -/
theorem slash_cut_unique (x y x1 y1 : List Char) (hx : '/' ∉ x) (hx1 : '/' ∉ x1)
    (h : x ++ '/' :: y = x1 ++ '/' :: y1) : x = x1 ∧ y = y1 := by
  induction x generalizing x1 with
  | nil =>
    cases x1 with
    | nil => simpa using h
    | cons d x1 =>
      simp only [List.nil_append, List.cons_append, List.cons.injEq] at h
      exact absurd (h.1 ▸ List.mem_cons_self _ _) hx1
  | cons c x ih =>
    cases x1 with
    | nil =>
      simp only [List.nil_append, List.cons_append, List.cons.injEq] at h
      exact absurd (h.1 ▸ List.mem_cons_self _ _) hx
    | cons d x1 =>
      simp only [List.cons_append, List.cons.injEq] at h
      obtain ⟨rfl, h2⟩ := h
      obtain ⟨h3, h4⟩ := ih x1 (fun hm => hx (List.mem_cons_of_mem _ hm))
        (fun hm => hx1 (List.mem_cons_of_mem _ hm)) h2
      exact ⟨by rw [h3], h4⟩

/-! ## Lemmas: what a successful step of the matcher went through -/

theorem matchHere_lazy_inv (p : Char → Bool) (cap : Bool) (rest : List Atom) (s : List Char)
    (r : List Char × List (List Char))
    (h : matchHere (⟨p, .plusLazy, cap⟩ :: rest) s = some r) :
    ∃ m s1 r1, m ≠ [] ∧ (∀ c ∈ m, p c = true) ∧ s = m ++ s1 ∧ matchHere rest s1 = some r1 ∧
      r = (m ++ r1.1, if cap then m :: r1.2 else r1.2) ∧
      ∀ m1 m2, m1 ≠ [] → m2 ≠ [] → m = m1 ++ m2 → matchHere rest (m2 ++ s1) = none := by
  have h1 : plusLazy p (withCapture cap (matchHere rest)) [] s = some r := h
  obtain ⟨m, s1, hm, hp, hs, hk, hmin⟩ := plusLazy_some _ _ _ _ _ h1
  simp only [List.nil_append] at hk hmin
  obtain ⟨r1, hr1, hr⟩ := (withCapture_some _ _ _ _ _).1 hk
  refine ⟨m, s1, r1, hm, hp, hs, hr1, hr, ?_⟩
  intro m1 m2 hm1 hm2 hmm
  exact (withCapture_none _ _ _ _).1 (hmin m1 m2 hm1 hm2 hmm)

theorem matchHere_greedy_inv (p : Char → Bool) (cap : Bool) (rest : List Atom) (s : List Char)
    (r : List Char × List (List Char))
    (h : matchHere (⟨p, .plus, cap⟩ :: rest) s = some r) :
    ∃ m s1 r1, m ≠ [] ∧ (∀ c ∈ m, p c = true) ∧ s = m ++ s1 ∧ matchHere rest s1 = some r1 ∧
      r = (m ++ r1.1, if cap then m :: r1.2 else r1.2) ∧
      ∀ m2 s2, m2 ≠ [] → (∀ c ∈ m2, p c = true) → s1 = m2 ++ s2 →
        matchHere rest s2 = none := by
  have h1 : plusGreedy p (withCapture cap (matchHere rest)) [] s = some r := h
  obtain ⟨m, s1, hm, hp, hs, hk, hmax⟩ := plusGreedy_some _ _ _ _ _ h1
  simp only [List.nil_append] at hk hmax
  obtain ⟨r1, hr1, hr⟩ := (withCapture_some _ _ _ _ _).1 hk
  refine ⟨m, s1, r1, hm, hp, hs, hr1, hr, ?_⟩
  intro m2 s2 hm2 hp2 hs2
  exact (withCapture_none _ _ _ _).1 (hmax m2 s2 hm2 hp2 hs2)

theorem matchHere_slash_inv (rest : List Atom) (s : List Char)
    (r : List Char × List (List Char))
    (h : matchHere (⟨isSlash, .one, false⟩ :: rest) s = some r) :
    ∃ cs r1, s = '/' :: cs ∧ matchHere rest cs = some r1 ∧ r = ('/' :: r1.1, r1.2) := by
  cases s with
  | nil => simp [matchHere, matchAtom] at h
  | cons c cs =>
    by_cases hc : isSlash c = true
    · have h1 : withCapture false (matchHere rest) [c] cs = some r := by
        simpa [matchHere, matchAtom, hc] using h
      obtain ⟨r1, hr1, hr⟩ := (withCapture_some _ _ _ _ _).1 h1
      have : c = '/' := (isSlash_iff c).1 hc
      subst this
      exact ⟨cs, r1, rfl, hr1, by simpa using hr⟩
    · simp [matchHere, matchAtom, hc] at h

theorem searchFrom_some (atoms : List Atom) (s : List Char)
    (r : List Char × List (List Char)) (h : searchFrom atoms s = some r) :
    ∃ pre t, s = pre ++ t ∧ matchHere atoms t = some r := by
  induction s with
  | nil => exact ⟨[], [], rfl, by simpa [searchFrom] using h⟩
  | cons c cs ih =>
    unfold searchFrom at h
    cases hm : matchHere atoms (c :: cs) with
    | some r1 =>
      simp only [hm, Option.some.injEq] at h
      subst h
      exact ⟨[], c :: cs, rfl, hm⟩
    | none =>
      simp only [hm] at h
      obtain ⟨pre, t, hs, ht⟩ := ih h
      exact ⟨c :: pre, t, by simp [hs], ht⟩

/-! ## Lemmas: the pattern of `parseBuildset` -/

theorem shape_slash_one {rest : List Atom} {w : List Char} {caps : List (List Char)}
    (h : Shape (⟨isSlash, .one, false⟩ :: rest) w caps) :
    ∃ w1, Shape rest w1 caps ∧ w = '/' :: w1 := by
  obtain ⟨m, w1, caps1, hm, hp, hq, hs, rfl, rfl⟩ := shape_cons_inv h
  have hlen : m.length = 1 := hq rfl
  match m, hlen, hp with
  | [c], _, hp =>
    have : c = '/' := (isSlash_iff c).1 (hp c (List.mem_singleton_self c))
    subst this
    exact ⟨w1, hs, rfl⟩

theorem shape_plus_capture {p : Char → Bool} {q : Quant} {rest : List Atom} {w : List Char}
    {caps : List (List Char)} (h : Shape (⟨p, q, true⟩ :: rest) w caps) :
    ∃ m w1 caps1, m ≠ [] ∧ (∀ c ∈ m, p c = true) ∧ Shape rest w1 caps1 ∧ w = m ++ w1 ∧
      caps = m :: caps1 := by
  obtain ⟨m, w1, caps1, hm, hp, _, hs, rfl, rfl⟩ := shape_cons_inv h
  exact ⟨m, w1, caps1, hm, hp, hs, rfl, rfl⟩

theorem shape_plus_nocapture {p : Char → Bool} {q : Quant} {rest : List Atom} {w : List Char}
    {caps : List (List Char)} (h : Shape (⟨p, q, false⟩ :: rest) w caps) :
    ∃ m w1, m ≠ [] ∧ (∀ c ∈ m, p c = true) ∧ Shape rest w1 caps ∧ w = m ++ w1 := by
  obtain ⟨m, w1, caps1, hm, hp, _, hs, rfl, rfl⟩ := shape_cons_inv h
  exact ⟨m, w1, hm, hp, hs, rfl⟩

/-- The texts of the shape `(\w+)\/(\w+)\/(\w+)`. -/
theorem shape_reBuildset {w : List Char} {caps : List (List Char)}
    (h : Shape reBuildset.atoms w caps) :
    ∃ g1 g2 g3, g1 ≠ [] ∧ (∀ c ∈ g1, isWord c = true) ∧ g2 ≠ [] ∧ (∀ c ∈ g2, isWord c = true) ∧
      g3 ≠ [] ∧ (∀ c ∈ g3, isWord c = true) ∧ w = g1 ++ '/' :: (g2 ++ '/' :: g3) ∧
      caps = [g1, g2, g3] := by
  obtain ⟨g1, w1, c1, h1, h1w, hs1, rfl, rfl⟩ := shape_plus_capture h
  obtain ⟨w2, hs2, rfl⟩ := shape_slash_one hs1
  obtain ⟨g2, w3, c3, h2, h2w, hs3, rfl, rfl⟩ := shape_plus_capture hs2
  obtain ⟨w4, hs4, rfl⟩ := shape_slash_one hs3
  obtain ⟨g3, w5, c5, h3, h3w, hs5, rfl, rfl⟩ := shape_plus_capture hs4
  obtain ⟨rfl, rfl⟩ := shape_nil_inv hs5
  exact ⟨g1, g2, g3, h1, h1w, h2, h2w, h3, h3w, by simp, rfl⟩

/-- What `FindStringSubmatch` can give for the pattern of `parseBuildset`: nothing, or
three non-empty runs of word characters joined by single slashes somewhere in the input. -/
theorem find_reBuildset_sound (s : List Char) :
    FindStringSubmatch reBuildset s = [] ∨
    ∃ pre g1 g2 g3 post, g1 ≠ [] ∧ (∀ c ∈ g1, isWord c = true) ∧ g2 ≠ [] ∧
      (∀ c ∈ g2, isWord c = true) ∧ g3 ≠ [] ∧ (∀ c ∈ g3, isWord c = true) ∧
      s = pre ++ (g1 ++ '/' :: (g2 ++ '/' :: g3)) ++ post ∧
      FindStringSubmatch reBuildset s = [g1 ++ '/' :: (g2 ++ '/' :: g3), g1, g2, g3] := by
  unfold FindStringSubmatch
  simp only [show reBuildset.anchored = false from rfl, Bool.false_eq_true, if_false]
  cases hs : searchFrom reBuildset.atoms s with
  | none => exact Or.inl rfl
  | some r =>
    right
    obtain ⟨hshape, pre, post, hpp⟩ := searchFrom_sound _ _ _ hs
    obtain ⟨g1, g2, g3, h1, h1w, h2, h2w, h3, h3w, hw, hc⟩ := shape_reBuildset hshape
    refine ⟨pre, g1, g2, g3, post, h1, h1w, h2, h2w, h3, h3w, ?_, ?_⟩
    · rw [hpp, hw]
    · simp only [hw, hc]

/-- The match of the pattern of `parseBuildset` at the start of `p/b/w…`, where `p`, `b`
and `w` are non-empty runs of word characters and `w` cannot be extended. -/
theorem matchHere_reBuildset (p b w t : List Char) (hp : p ≠ []) (hpw : ∀ c ∈ p, isWord c = true)
    (hb : b ≠ []) (hbw : ∀ c ∈ b, isWord c = true) (hw : w ≠ [])
    (hww : ∀ c ∈ w, isWord c = true) (ht : ∀ c t2, t = c :: t2 → isWord c = false) :
    matchHere reBuildset.atoms (p ++ '/' :: (b ++ '/' :: (w ++ t))) =
      some (p ++ '/' :: (b ++ '/' :: w), [p, b, w]) := by
  have hslash : ∀ (x : List Char) (c : Char) (s2 : List Char),
      '/' :: x = c :: s2 → isWord c = false := by
    intro x c s2 h
    simp only [List.cons.injEq] at h
    rw [← h.1]
    exact isWord_slash
  have h5 : matchHere [⟨isWord, .plus, true⟩] (w ++ t) = some (w, [w]) := by
    have := matchHere_plus_run ⟨isWord, .plus, true⟩ [] w t ([], []) rfl hw hww ht rfl
    simpa using this
  have h4 : matchHere [⟨isSlash, .one, false⟩, ⟨isWord, .plus, true⟩] ('/' :: (w ++ t)) =
      some ('/' :: w, [w]) := by
    have := matchHere_one ⟨isSlash, .one, false⟩ _ '/' (w ++ t) _ rfl rfl h5
    simpa using this
  have h3 : matchHere [⟨isWord, .plus, true⟩, ⟨isSlash, .one, false⟩, ⟨isWord, .plus, true⟩]
      (b ++ '/' :: (w ++ t)) = some (b ++ '/' :: w, [b, w]) := by
    have := matchHere_plus_run ⟨isWord, .plus, true⟩ _ b ('/' :: (w ++ t)) _ rfl hb hbw
      (hslash _) h4
    simpa using this
  have h2 : matchHere [⟨isSlash, .one, false⟩, ⟨isWord, .plus, true⟩, ⟨isSlash, .one, false⟩,
      ⟨isWord, .plus, true⟩] ('/' :: (b ++ '/' :: (w ++ t))) =
      some ('/' :: (b ++ '/' :: w), [b, w]) := by
    have := matchHere_one ⟨isSlash, .one, false⟩ _ '/' (b ++ '/' :: (w ++ t)) _ rfl rfl h3
    simpa using this
  have := matchHere_plus_run ⟨isWord, .plus, true⟩ _ p ('/' :: (b ++ '/' :: (w ++ t))) _ rfl
    hp hpw (hslash _) h2
  simpa [reBuildset] using this

/-- `FindStringSubmatch` for the pattern of `parseBuildset` on `p/b/s`, where `p`, `b` and
`s` are strings of word characters: the three strings when none is empty, and no match
otherwise. -/
theorem find_reBuildset_words (p b s : List Char) (hpw : ∀ c ∈ p, isWord c = true)
    (hbw : ∀ c ∈ b, isWord c = true) (hsw : ∀ c ∈ s, isWord c = true) :
    FindStringSubmatch reBuildset (p ++ '/' :: (b ++ '/' :: s)) =
      if p ≠ [] ∧ b ≠ [] ∧ s ≠ [] then [p ++ '/' :: (b ++ '/' :: s), p, b, s] else [] := by
  by_cases hne : p ≠ [] ∧ b ≠ [] ∧ s ≠ []
  · rw [if_pos hne]
    have := matchHere_reBuildset p b s [] hne.1 hpw hne.2.1 hbw hne.2.2 hsw
      (by intro c t2 h; simp at h)
    simp only [List.append_nil] at this
    unfold FindStringSubmatch
    simp only [show reBuildset.anchored = false from rfl, Bool.false_eq_true, if_false,
      searchFrom_of_matchHere _ _ _ this]
  · rw [if_neg hne]
    rcases find_reBuildset_sound (p ++ '/' :: (b ++ '/' :: s)) with h | h
    · exact h
    · exfalso
      obtain ⟨pre, g1, g2, g3, post, h1, h1w, h2, h2w, h3, h3w, hs, _⟩ := h
      have hcount := congrArg (List.count '/') hs
      have c0 : ∀ w : List Char, (∀ c ∈ w, isWord c = true) → List.count '/' w = 0 :=
        fun w hw => List.count_eq_zero.2 (slash_not_mem_of_word hw)
      simp only [List.count_append, List.count_cons_self, c0 p hpw, c0 b hbw, c0 s hsw,
        c0 g1 h1w, c0 g2 h2w, c0 g3 h3w] at hcount
      have hpre : '/' ∉ pre := List.count_eq_zero.1 (by omega)
      have hpost : '/' ∉ post := List.count_eq_zero.1 (by omega)
      have e1 : p ++ '/' :: (b ++ '/' :: s) = (pre ++ g1) ++ '/' :: (g2 ++ '/' :: (g3 ++ post)) := by
        rw [hs]; simp
      obtain ⟨hp1, hr1⟩ := slash_cut_unique _ _ _ _ (slash_not_mem_of_word hpw)
        (by
          intro hm
          rcases List.mem_append.1 hm with hm | hm
          · exact hpre hm
          · exact slash_not_mem_of_word h1w hm) e1
      obtain ⟨hb1, hs1⟩ := slash_cut_unique _ _ _ _ (slash_not_mem_of_word hbw)
        (slash_not_mem_of_word h2w) hr1
      apply hne
      refine ⟨?_, ?_, ?_⟩
      · rw [hp1]; simp [h1]
      · rw [hb1]; exact h2
      · rw [hs1]; simp [h3]

/-- `FindStringSubmatch` for the pattern of `parseBuildset` on a key `p/b/s` whose first
two segments `p` and `b` contain no slash and whose third segment `s` is a string of
word characters: when there is a match, its second capture is `b` and its third capture
is the whole of `s`. -/
theorem find_reBuildset_segments (p b s : List Char) (hp : '/' ∉ p) (hb : '/' ∉ b)
    (hsw : ∀ c ∈ s, isWord c = true) :
    FindStringSubmatch reBuildset (p ++ '/' :: (b ++ '/' :: s)) = [] ∨
    ∃ m0 g1, FindStringSubmatch reBuildset (p ++ '/' :: (b ++ '/' :: s)) = [m0, g1, b, s] := by
  unfold FindStringSubmatch
  simp only [show reBuildset.anchored = false from rfl, Bool.false_eq_true, if_false]
  cases hs : searchFrom reBuildset.atoms (p ++ '/' :: (b ++ '/' :: s)) with
  | none => exact Or.inl rfl
  | some r =>
    right
    obtain ⟨pre, t, hkey, hm⟩ := searchFrom_some _ _ _ hs
    obtain ⟨g1, t1, r1, _, h1w, ht, hm1, hr, _⟩ := matchHere_greedy_inv _ _ _ _ _ hm
    obtain ⟨t2, r2, ht1, hm2, hr1⟩ := matchHere_slash_inv _ _ _ hm1
    obtain ⟨g2, t3, r3, _, h2w, ht2, hm3, hr2, _⟩ := matchHere_greedy_inv _ _ _ _ _ hm2
    obtain ⟨t4, r4, ht3, hm4, hr3⟩ := matchHere_slash_inv _ _ _ hm3
    obtain ⟨g3, t5, r5, _, h3w, ht4, hm5, hr4, hmax⟩ := matchHere_greedy_inv _ _ _ _ _ hm4
    have hr5 : r5 = ([], []) := by
      simpa [matchHere] using hm5.symm
    subst hr5
    have hstop : ∀ c t6, t5 = c :: t6 → isWord c = false := by
      intro c t6 ht5
      by_contra hc
      have hc1 : isWord c = true := by simpa using hc
      have := hmax [c] t6 (by simp) (by simpa using hc1) (by simpa using ht5)
      simp [matchHere] at this
    have hcaps : r.2 = [g1, g2, g3] := by
      rw [hr, hr1, hr2, hr3, hr4]
      simp
    have hfull : p ++ '/' :: (b ++ '/' :: s) =
        (pre ++ g1) ++ '/' :: (g2 ++ '/' :: (g3 ++ t5)) := by
      rw [hkey, ht, ht1, ht2, ht3, ht4]
      simp
    have hcount := congrArg (List.count '/') hfull
    have c0 : ∀ w : List Char, '/' ∉ w → List.count '/' w = 0 :=
      fun w hw => List.count_eq_zero.2 hw
    simp only [List.count_append, List.count_cons_self, c0 p hp, c0 b hb,
      c0 s (slash_not_mem_of_word hsw), c0 g1 (slash_not_mem_of_word h1w),
      c0 g2 (slash_not_mem_of_word h2w), c0 g3 (slash_not_mem_of_word h3w)] at hcount
    have hpre : '/' ∉ pre := List.count_eq_zero.1 (by omega)
    obtain ⟨_, hrest⟩ := slash_cut_unique _ _ _ _ hp
      (by
        intro hmem
        rcases List.mem_append.1 hmem with hmem | hmem
        · exact hpre hmem
        · exact slash_not_mem_of_word h1w hmem) hfull
    obtain ⟨hb2, hs3⟩ := slash_cut_unique _ _ _ _ hb (slash_not_mem_of_word h2w) hrest
    have ht5 : t5 = [] := by
      cases ht5 : t5 with
      | nil => rfl
      | cons c t6 =>
        exfalso
        have hc := hstop c t6 ht5
        have hcw : isWord c = true := hsw c (by rw [hs3, ht5]; simp)
        rw [hcw] at hc
        exact absurd hc (by simp)
    rw [ht5, List.append_nil] at hs3
    refine ⟨r.1, g1, ?_⟩
    show r.1 :: r.2 = _
    rw [hcaps, hb2, hs3]

/-! ## Lemmas: `parseBuildset` -/

theorem parseInt_plus (cs : List Char) :
    ParseInt ('+' :: cs) =
      match ParseUint cs with
      | .error e => .error e
      | .ok un => if un ≥ 2 ^ 63 then .error .ErrRange else .ok (un : Int) := by
  have h1 : ('+' == '-') = false := by decide
  simp only [ParseInt, h1, beq_self_eq_true, true_or, if_true, Bool.false_eq_true,
    not_false_eq_true, true_and, false_and, if_false]

theorem parseInt_minus (cs : List Char) :
    ParseInt ('-' :: cs) =
      match ParseUint cs with
      | .error e => .error e
      | .ok un => if un > 2 ^ 63 then .error .ErrRange else .ok (-(un : Int)) := by
  simp only [ParseInt, beq_self_eq_true, or_true, if_true, not_true_eq_false, false_and,
    if_false, true_and]

theorem isDigits_iff (ds : List Char) :
    isDigits ds = true ↔ ds ≠ [] ∧ ∀ c ∈ ds, isDigit c = true := by
  unfold isDigits
  cases ds with
  | nil => simp
  | cons c cs => simp [List.all_eq_true]

theorem parseUint_ok_iff (s : List Char) :
    (∃ un, ParseUint s = .ok un) ↔ isDigits s = true ∧ decVal s < 2 ^ 64 := by
  constructor
  · rintro ⟨un, hu⟩
    obtain ⟨h1, h2, _, h4⟩ := parseUint_ok _ _ hu
    exact ⟨(isDigits_iff s).2 ⟨h1, h2⟩, h4⟩
  · rintro ⟨hd, hlt⟩
    obtain ⟨h1, h2⟩ := (isDigits_iff s).1 hd
    rw [parseUint_digits s h1 h2, if_pos hlt]
    exact ⟨_, rfl⟩

/-- `ParseInt` accepts exactly the base-10 literals of signed 64-bit integers. -/
theorem parseInt_ok_iff (s : List Char) :
    (∃ v, ParseInt s = .ok v) ↔ isInt64Literal s = true := by
  cases s with
  | nil => simp [ParseInt, isInt64Literal]
  | cons c cs =>
    have key : ∀ (body : List Char) (bound : Nat → Prop) [DecidablePred bound]
        (f : Nat → Int),
        (∀ n, bound n → n < 2 ^ 64) →
        ((∃ v, (match ParseUint body with
          | .error e => (Except.error e : Except NumErr Int)
          | .ok un => if ¬ bound un then .error .ErrRange else .ok (f un)) = .ok v) ↔
          (isDigits body && decide (bound (decVal body))) = true) := by
      intro body bound _ f hbound
      simp only [Bool.and_eq_true, decide_eq_true_eq]
      constructor
      · rintro ⟨v, hv⟩
        cases hu : ParseUint body with
        | error e => simp [hu] at hv
        | ok un =>
          obtain ⟨h1, h2, h3, _⟩ := parseUint_ok _ _ hu
          simp only [hu] at hv
          split at hv
          · simp at hv
          · rename_i hb
            subst h3
            exact ⟨(isDigits_iff body).2 ⟨h1, h2⟩, not_not.1 hb⟩
      · rintro ⟨hd, hb⟩
        obtain ⟨un, hu⟩ := (parseUint_ok_iff body).2 ⟨hd, hbound _ hb⟩
        obtain ⟨_, _, h3, _⟩ := parseUint_ok _ _ hu
        subst h3
        simp only [hu]
        rw [if_neg (not_not.2 hb)]
        exact ⟨_, rfl⟩
    by_cases hpl : c = '+'
    · subst hpl
      rw [parseInt_plus]
      simp only [isInt64Literal, if_true]
      have := key cs (fun n => n < 2 ^ 63) (fun n => (n : Int))
        (fun n hn => lt_trans hn (by norm_num))
      simpa only [not_lt, ge_iff_le] using this
    · by_cases hmi : c = '-'
      · subst hmi
        rw [parseInt_minus]
        have h1 : ¬ ('-' = '+') := by decide
        simp only [isInt64Literal, h1, if_false, if_true]
        have := key cs (fun n => n ≤ 2 ^ 63) (fun n => -(n : Int))
          (fun n hn => lt_of_le_of_lt hn (by norm_num))
        simpa only [not_le, gt_iff_lt] using this
      · rw [parseInt_unsigned c cs (by simp [hpl, hmi])]
        simp only [isInt64Literal, hpl, hmi, if_false]
        have := key (c :: cs) (fun n => n < 2 ^ 63) (fun n => (n : Int))
          (fun n hn => lt_trans hn (by norm_num))
        simpa only [not_lt, ge_iff_le] using this

theorem parseBuildset_of_find_nil (str : List Char)
    (h : FindStringSubmatch reBuildset str = []) : parseBuildset str = none := by
  simp only [parseBuildset, h]

theorem parseBuildset_of_find (str m0 m1 m2 m3 : List Char)
    (h : FindStringSubmatch reBuildset str = [m0, m1, m2, m3]) :
    parseBuildset str =
      match Split m3 ['_', '_'] with
      | [sub0, sub1] =>
        match ParseInt sub0 with
        | .error _ => none
        | .ok unixTimestamp =>
          some { Key := str, Project := m1, Branch := m2, UnixTimestamp := unixTimestamp,
                 Tag := sub1 }
      | _ => none := by
  simp only [parseBuildset, h]

/-- What a successful `parseBuildset` went through. -/
theorem parseBuildset_some (str : List Char) (bs : Buildset) (h : parseBuildset str = some bs) :
    ∃ m0 m1 m2 m3 sub0 sub1 v, FindStringSubmatch reBuildset str = [m0, m1, m2, m3] ∧
      Split m3 ['_', '_'] = [sub0, sub1] ∧ ParseInt sub0 = .ok v ∧
      bs = { Key := str, Project := m1, Branch := m2, UnixTimestamp := v, Tag := sub1 } := by
  rcases find_reBuildset_sound str with hf | ⟨pre, g1, g2, g3, post, _, _, _, _, _, _, _, hf⟩
  · rw [parseBuildset_of_find_nil str hf] at h
    exact absurd h (by simp)
  · rw [parseBuildset_of_find str _ _ _ _ hf] at h
    split at h
    · rename_i sub0 sub1 hsp
      split at h
      · exact absurd h (by simp)
      · rename_i v hv
        simp only [Option.some.injEq] at h
        exact ⟨_, _, _, _, sub0, sub1, v, hf, hsp, hv, h.symm⟩
    · exact absurd h (by simp)

/-- No run of digits followed by an underscore contains two underscores in a row. -/
theorem no_sep_in_digits (t : List Char) (ht : ∀ c ∈ t, isDigit c = true) :
    ¬ ['_', '_'] <:+: t ++ ['_'] := by
  induction t with
  | nil =>
    intro h
    have := h.length_le
    simp at this
  | cons c t ih =>
    intro h
    rcases List.infix_cons_iff.1 h with h1 | h1
    · have hc : c = '_' := by
        have := List.cons_prefix_cons.1 h1
        exact this.1.symm
      have := ht c (List.mem_cons_self _ _)
      rw [hc, isDigit_underscore] at this
      exact absurd this (by simp)
    · exact ih (fun x hx => ht x (List.mem_cons_of_mem _ hx)) h1

/-! ## Theorems: `parseBuildset` -/

theorem hasThreeSegments_slash (s : List Char) (h : HasThreeSegments s) : '/' ∈ s := by
  obtain ⟨pre, g1, g2, g3, post, _, _, _, _, _, _, rfl⟩ := h
  simp

/-- `parseBuildset` on a key `p/b/t__g`, where `p` and `b` are non-empty strings of word
characters, `t` is a non-empty string of decimal digits of a value below `2^63` (leading
zeros included), and `g` is a string of word characters that does not contain `__`. -/
theorem parseBuildset_digits (p b t g : List Char)
    (hp : p ≠ []) (hpw : ∀ c ∈ p, isWord c = true)
    (hb : b ≠ []) (hbw : ∀ c ∈ b, isWord c = true)
    (ht : t ≠ []) (htd : ∀ c ∈ t, isDigit c = true) (hv : decVal t < 2 ^ 63)
    (hgw : ∀ c ∈ g, isWord c = true) (hg : ¬ ['_', '_'] <:+: g) :
    parseBuildset (p ++ ['/'] ++ b ++ ['/'] ++ t ++ ['_', '_'] ++ g) =
      some { Key := p ++ ['/'] ++ b ++ ['/'] ++ t ++ ['_', '_'] ++ g, Project := p,
             Branch := b, UnixTimestamp := (decVal t : Int), Tag := g } := by
  have hsw : ∀ c ∈ t ++ ['_', '_'] ++ g, isWord c = true := by
    intro c hc
    simp only [List.mem_append, List.mem_cons, List.mem_singleton] at hc
    rcases hc with (hc | hc | hc | hc) | hc
    · exact isWord_of_isDigit (htd c hc)
    · rw [hc]; exact isWord_underscore
    · rw [hc]; exact isWord_underscore
    · simp at hc
    · exact hgw c hc
  have hne : p ≠ [] ∧ b ≠ [] ∧ t ++ ['_', '_'] ++ g ≠ [] := ⟨hp, hb, by simp⟩
  have hfind := find_reBuildset_words p b (t ++ ['_', '_'] ++ g) hpw hbw hsw
  rw [if_pos hne] at hfind
  have hkey : p ++ ['/'] ++ b ++ ['/'] ++ t ++ ['_', '_'] ++ g =
      p ++ '/' :: (b ++ '/' :: (t ++ ['_', '_'] ++ g)) := by simp
  have hsplit : Split (t ++ ['_', '_'] ++ g) ['_', '_'] = [t, g] := by
    rw [split_first t g ['_', '_'] (by simp) (no_sep_in_digits t htd), split_none g _ hg]
  rw [hkey, parseBuildset_of_find _ _ _ _ _ hfind, hsplit]
  simp only [parseInt_digits t ht htd, if_pos hv]

/-- C2, as amended: `parseBuildset` round-trips the keys `p/b/t__g` where `p` and `b` are
non-empty strings of word characters, `t` is the decimal digit string of a non-negative
signed 64-bit integer `n`, and `g` is a string of word characters that does not contain
`__`: the result has that key, `Project = p`, `Branch = b`, `UnixTimestamp = n` and
`Tag = g`. -/
theorem parseBuildset_roundtrip (p b g : List Char) (n : Nat)
    (hp : p ≠ []) (hpw : ∀ c ∈ p, isWord c = true)
    (hb : b ≠ []) (hbw : ∀ c ∈ b, isWord c = true)
    (hn : n < 2 ^ 63)
    (hgw : ∀ c ∈ g, isWord c = true) (hg : ¬ ['_', '_'] <:+: g) :
    parseBuildset (p ++ ['/'] ++ b ++ ['/'] ++ (Nat.repr n).toList ++ ['_', '_'] ++ g) =
      some { Key := p ++ ['/'] ++ b ++ ['/'] ++ (Nat.repr n).toList ++ ['_', '_'] ++ g,
             Project := p, Branch := b, UnixTimestamp := (n : Int), Tag := g } := by
  obtain ⟨ht, htd, hval⟩ := decVal_repr n
  have h := parseBuildset_digits p b (Nat.repr n).toList g hp hpw hb hbw ht htd
    (by rw [hval]; exact hn) hgw hg
  rw [hval] at h
  exact h

/-- Witness for C2 as amended: the key `proj/rel/300__b`. -/
theorem parseBuildset_roundtrip_witness :
    parseBuildset "proj/rel/300__b".toList =
      some ⟨"proj/rel/300__b".toList, "proj".toList, "rel".toList, 300, "b".toList⟩ :=
  parseBuildset_roundtrip "proj".toList "rel".toList "b".toList 300
    (by decide) (by decide) (by decide) (by decide) (by decide) (by decide) (by decide)

/-- C2 as stated fails: with the tag `a__b`, a string of word characters, the key
`p/b/1__a__b` has the stated form and `parseBuildset` returns nothing for it. -/
theorem parseBuildset_roundtrip_counterexample :
    ¬ ∀ (p b g : List Char) (n : Nat), p ≠ [] → (∀ c ∈ p, isWord c = true) → b ≠ [] →
      (∀ c ∈ b, isWord c = true) → n < 2 ^ 63 → (∀ c ∈ g, isWord c = true) →
      parseBuildset (p ++ ['/'] ++ b ++ ['/'] ++ (Nat.repr n).toList ++ ['_', '_'] ++ g) =
        some { Key := p ++ ['/'] ++ b ++ ['/'] ++ (Nat.repr n).toList ++ ['_', '_'] ++ g,
               Project := p, Branch := b, UnixTimestamp := (n : Int), Tag := g } := by
  intro h
  have h1 := h "p".toList "b".toList "a__b".toList 1 (by decide) (by decide)
    (by decide) (by decide) (by decide) (by decide)
  have h2 : parseBuildset ("p".toList ++ ['/'] ++ "b".toList ++ ['/'] ++ (Nat.repr 1).toList ++
      ['_', '_'] ++ "a__b".toList) = none := by decide
  rw [h2] at h1
  exact absurd h1 (by simp)

/-- C3: `parseBuildset` returns nothing (never a partially filled record) for a string
that does not contain three non-empty runs of word characters joined by single slashes,
and for a key `p/b/s`, with first and second segments `p` and `b` (any texts without a
slash), whose third segment `s` is a string of word characters that does not contain
`__`, or whose part `a` before the first `__` is not a base-10 literal of a signed
64-bit integer. -/
theorem parseBuildset_rejects (str : List Char)
    (h : ¬ HasThreeSegments str ∨
      ∃ p b s, str = p ++ ['/'] ++ b ++ ['/'] ++ s ∧ '/' ∉ p ∧ '/' ∉ b ∧
        (∀ c ∈ s, isWord c = true) ∧
        (¬ ['_', '_'] <:+: s ∨
          ∃ a r, s = a ++ ['_', '_'] ++ r ∧ ¬ ['_', '_'] <:+: a ++ ['_'] ∧
            isInt64Literal a = false)) :
    parseBuildset str = none := by
  rcases h with h | ⟨p, b, s, rfl, hp, hb, hsw, h⟩
  · rcases find_reBuildset_sound str with hf | ⟨pre, g1, g2, g3, post, h1, h1w, h2, h2w,
      h3, h3w, hs, _⟩
    · exact parseBuildset_of_find_nil str hf
    · exact absurd ⟨pre, g1, g2, g3, post, h1, h1w, h2, h2w, h3, h3w, by rw [hs]; simp⟩ h
  · have hkey : p ++ ['/'] ++ b ++ ['/'] ++ s = p ++ '/' :: (b ++ '/' :: s) := by simp
    rw [hkey]
    rcases find_reBuildset_segments p b s hp hb hsw with hfind | ⟨m0, g1, hfind⟩
    · exact parseBuildset_of_find_nil _ hfind
    · rw [parseBuildset_of_find _ _ _ _ _ hfind]
      rcases h with h | ⟨a, r, rfl, hfirst, hlit⟩
      · rw [split_none s _ h]
      · rw [split_first a r ['_', '_'] (by simp) hfirst]
        have herr : ∀ v, ParseInt a ≠ .ok v := by
          intro v hv
          rw [(parseInt_ok_iff a).1 ⟨v, hv⟩] at hlit
          exact absurd hlit (by simp)
        split
        · rename_i sub0 sub1 heq
          simp only [List.cons.injEq] at heq
          obtain ⟨rfl, _⟩ := heq
          split
          · rfl
          · rename_i v hv
            exact absurd hv (herr v)
        · rfl

/-- Witness for C3: the keys `onlyonesegment`, `p/b/12345`, `my-proj/rel/12345` and
`p/b/9223372036854775808__t`. -/
theorem parseBuildset_rejects_witness :
    parseBuildset "onlyonesegment".toList = none ∧
    parseBuildset "p/b/12345".toList = none ∧
    parseBuildset "my-proj/rel/12345".toList = none ∧
    parseBuildset "p/b/9223372036854775808__t".toList = none :=
  ⟨parseBuildset_rejects "onlyonesegment".toList
      (Or.inl (fun h => absurd (hasThreeSegments_slash _ h) (by decide))),
    parseBuildset_rejects "p/b/12345".toList
      (Or.inr ⟨"p".toList, "b".toList, "12345".toList, by decide, by decide, by decide,
        by decide, Or.inl (by decide)⟩),
    parseBuildset_rejects "my-proj/rel/12345".toList
      (Or.inr ⟨"my-proj".toList, "rel".toList, "12345".toList, by decide, by decide,
        by decide, by decide, Or.inl (by decide)⟩),
    parseBuildset_rejects "p/b/9223372036854775808__t".toList
      (Or.inr ⟨"p".toList, "b".toList, "9223372036854775808__t".toList, by decide,
        by decide, by decide, by decide,
        Or.inr ⟨"9223372036854775808".toList, "t".toList, by decide, by decide,
          by decide⟩⟩)⟩

/-- C9: every Buildset that `parseBuildset` returns satisfies the invariant of the data
model: `UnixTimestamp` is non-negative, `Project` and `Branch` are non-empty strings of
word characters, `Key` is the input, and `Key` contains `Project/Branch/`, then a run of
decimal digits of the value `UnixTimestamp`, then `__` and `Tag`. -/
theorem parseBuildset_invariant (str : List Char) (bs : Buildset)
    (h : parseBuildset str = some bs) :
    0 ≤ bs.UnixTimestamp ∧
    bs.Project ≠ [] ∧ (∀ c ∈ bs.Project, isWord c = true) ∧
    bs.Branch ≠ [] ∧ (∀ c ∈ bs.Branch, isWord c = true) ∧
    bs.Key = str ∧
    ∃ pre epoch post, epoch ≠ [] ∧ (∀ c ∈ epoch, isDigit c = true) ∧
      (decVal epoch : Int) = bs.UnixTimestamp ∧
      bs.Key = pre ++ bs.Project ++ ['/'] ++ bs.Branch ++ ['/'] ++ epoch ++ ['_', '_'] ++
        bs.Tag ++ post := by
  obtain ⟨m0, m1, m2, m3, sub0, sub1, v, hf, hsp, hv, rfl⟩ := parseBuildset_some str bs h
  rcases find_reBuildset_sound str with hnil | ⟨pre, g1, g2, g3, post, h1, h1w, h2, h2w,
    h3, h3w, hs, hf2⟩
  · rw [hnil] at hf
    exact absurd hf (by simp)
  · rw [hf2] at hf
    simp only [List.cons.injEq, and_true] at hf
    obtain ⟨_, rfl, rfl, rfl⟩ := hf
    have h3eq := split_two _ _ _ _ hsp
    have hsubw : ∀ c ∈ sub0, isWord c = true := by
      intro c hc
      apply h3w
      rw [h3eq]
      simp [hc]
    obtain ⟨hne, hd, hval, _⟩ := parseInt_word_ok sub0 v hsubw hv
    refine ⟨?_, h1, h1w, h2, h2w, rfl, pre, sub0, post, hne, hd, hval.symm, ?_⟩
    · rw [hval]
      exact Int.natCast_nonneg _
    · show str = _
      rw [hs, h3eq]
      simp

/-- Witness for C9: the key `proj/rel/300__b/`. -/
theorem parseBuildset_invariant_witness :
    parseBuildset "proj/rel/300__b/".toList =
        some ⟨"proj/rel/300__b/".toList, "proj".toList, "rel".toList, 300, "b".toList⟩ ∧
      (0 : Int) ≤ 300 :=
  have h : parseBuildset "proj/rel/300__b/".toList =
      some ⟨"proj/rel/300__b/".toList, "proj".toList, "rel".toList, 300, "b".toList⟩ := by
    decide
  ⟨h, (parseBuildset_invariant _ _ h).1⟩

/-! ## Theorems: `S3ListArchiveForBuildset` -/

theorem archiveLoop_first (os arch : List Char) (pre : List (List Char)) (key : List Char)
    (post : List (List Char)) (hos : os <:+: key) (harch : arch <:+: key)
    (hpre : ∀ k ∈ pre, ¬ (os <:+: k ∧ arch <:+: k)) :
    archiveLoop os arch (pre ++ key :: post) = some key := by
  induction pre with
  | nil =>
    simp only [List.nil_append, archiveLoop, (contains_iff key os).2 hos,
      (contains_iff key arch).2 harch, Bool.and_self, if_true]
  | cons k pre ih =>
    have hk : ¬ (os <:+: k ∧ arch <:+: k) := hpre k (List.mem_cons_self _ _)
    have hb : (Contains k os && Contains k arch) = false := by
      rw [Bool.eq_false_iff]
      intro hc
      simp only [Bool.and_eq_true, contains_iff] at hc
      exact hk hc
    simp only [List.cons_append, archiveLoop, hb, Bool.false_eq_true, if_false]
    exact ih (fun k1 hk1 => hpre k1 (List.mem_cons_of_mem _ hk1))

theorem archiveLoop_none_iff (os arch : List Char) (keys : List (List Char)) :
    archiveLoop os arch keys = none ↔ ∀ k ∈ keys, ¬ (os <:+: k ∧ arch <:+: k) := by
  induction keys with
  | nil => simp [archiveLoop]
  | cons k keys ih =>
    by_cases hb : (Contains k os && Contains k arch) = true
    · have hk : os <:+: k ∧ arch <:+: k := by
        simpa only [Bool.and_eq_true, contains_iff] using hb
      simp only [archiveLoop, hb, if_true, List.mem_cons, forall_eq_or_imp]
      constructor
      · intro h; exact absurd h (by simp)
      · intro h; exact absurd hk h.1
    · have hk : ¬ (os <:+: k ∧ arch <:+: k) := by
        intro hk
        apply hb
        simpa only [Bool.and_eq_true, contains_iff] using hk
      simp only [archiveLoop, hb, Bool.false_eq_true, if_false, ih, List.mem_cons,
        forall_eq_or_imp, hk, not_false_eq_true, true_and]

/-- C4: for every listing of keys and every `os` and `arch`, `S3ListArchiveForBuildset`
returns the first key of the listing that contains `os` and contains `arch` as
substrings, and it fails with the error "No matching archive found" exactly when no key
of the listing contains both. -/
theorem S3ListArchiveForBuildset_first_match (s3svc : S3)
    (buildset os arch s3bucket : List Char) (resp : ListObjectsV2Output)
    (hresp : s3svc { Bucket := s3bucket, Prefix := some buildset, Delimiter := some ['/'] } =
      .ok resp) :
    (∀ pre key post, resp.Contents = pre ++ key :: post → os <:+: key → arch <:+: key →
      (∀ k ∈ pre, ¬ (os <:+: k ∧ arch <:+: k)) →
      S3ListArchiveForBuildset s3svc buildset os arch s3bucket = .ok key) ∧
    (S3ListArchiveForBuildset s3svc buildset os arch s3bucket =
        .error (.errorString ("No matching archive found for '".toList ++ os ++
          "', '".toList ++ arch ++ "'".toList)) ↔
      ∀ k ∈ resp.Contents, ¬ (os <:+: k ∧ arch <:+: k)) := by
  constructor
  · intro pre key post hc hos harch hpre
    simp only [S3ListArchiveForBuildset, hresp, hc, archiveLoop_first os arch pre key post hos
      harch hpre]
  · rw [← archiveLoop_none_iff]
    simp only [S3ListArchiveForBuildset, hresp]
    cases archiveLoop os arch resp.Contents with
    | none => simp
    | some k => simp

/-- Witness for C4: the keys `buildset/win32-x64.zip` and `buildset/macos-x86.zip` with
`os = macos` and `arch = x86`. -/
theorem S3ListArchiveForBuildset_first_match_witness :
    S3ListArchiveForBuildset
        (fun _ => .ok ⟨false, [], ["buildset/win32-x64.zip".toList,
          "buildset/macos-x86.zip".toList]⟩)
        "buildset/".toList "macos".toList "x86".toList "bucket".toList =
      .ok "buildset/macos-x86.zip".toList :=
  (S3ListArchiveForBuildset_first_match
      (fun _ => .ok ⟨false, [], ["buildset/win32-x64.zip".toList,
        "buildset/macos-x86.zip".toList]⟩)
      "buildset/".toList "macos".toList "x86".toList "bucket".toList _ rfl).1
    ["buildset/win32-x64.zip".toList] "buildset/macos-x86.zip".toList [] rfl
    (by decide) (by decide) (by decide)

/-- C8 fails on the code: with `os = macos`, a listing whose only key contains `macos` and
`universal`, and a requested `arch` that no key contains, `S3ListArchiveForBuildset`
returns the error "No matching archive found" instead of the universal archive. -/
theorem S3ListArchiveForBuildset_no_universal_match :
    S3ListArchiveForBuildset
        (fun _ => .ok ⟨false, [], ["buildset/app-macos-universal.zip".toList]⟩)
        "buildset/".toList "macos".toList "amd64".toList "bucket".toList =
      .error (.errorString "No matching archive found for 'macos', 'amd64'".toList) := by
  rfl

/-- C7 fails on the code: `S3ListArchiveForBuildset` returns a key from an archive
listing that is marked truncated, and `S3ListProjects` returns a project list when the
branch listing of a project is marked truncated. -/
theorem truncated_listing_not_fatal :
    S3ListArchiveForBuildset
        (fun _ => .ok ⟨true, [], ["buildset/macos-x86.zip".toList]⟩)
        "buildset/".toList "macos".toList "x86".toList "bucket".toList =
      .ok "buildset/macos-x86.zip".toList ∧
    S3ListProjects
        (fun inp => match inp.Prefix with
          | none => .ok ⟨false, ["proj/".toList], []⟩
          | some _ => .ok ⟨true, ["proj/master/".toList], []⟩)
        "bucket".toList =
      .ok [⟨"proj".toList, ["master".toList]⟩] := by
  constructor <;> rfl

/-- The truncation checks that the code does make: the top-level listing of
`S3ListProjects` and the listing of `S3ListLatestBuildsetForProject`. -/
theorem truncated_listing_checked (s3svc : S3) (project branch s3bucket : List Char)
    (resp : ListObjectsV2Output) (htr : resp.IsTruncated = true) :
    (s3svc { Bucket := s3bucket, Prefix := none, Delimiter := some ['/'] } = .ok resp →
      S3ListProjects s3svc s3bucket =
        .error (.errorString "Truncated response in S3ListProjects()".toList)) ∧
    (s3svc { Bucket := s3bucket, Prefix := some (project ++ ['/'] ++ branch ++ ['/']),
               Delimiter := some ['/'] } = .ok resp →
      S3ListLatestBuildsetForProject s3svc project branch s3bucket =
        .error (.errorString
          "Truncated response in S3GetLatestBuildsetForProject()".toList)) := by
  constructor
  · intro h
    simp only [S3ListProjects, h, htr, if_true]
  · intro h
    simp only [S3ListLatestBuildsetForProject, h, htr, if_true]

/-! ## Lemmas: the loop of `S3ListLatestBuildsetForProject` -/

/-- One turn of the loop, in terms of what it extracts from the prefix. -/
theorem latestLoop_cons (branch : List Char) (ts : Int) (ptr : Option (List Char))
    (q : List Char) (rest : List (List Char)) :
    latestLoop branch ts ptr (q :: rest) =
      match looseDigits branch q with
      | none => latestLoop branch ts ptr rest
      | some d =>
        match ParseInt d with
        | .error e => .error (.numError d e)
        | .ok v =>
          if v > ts then latestLoop branch v (some q) rest
          else latestLoop branch ts ptr rest := by
  conv_lhs => unfold latestLoop
  unfold looseDigits
  split
  · rename_i mb mt _
    by_cases hb : mb ≠ branch
    · rw [if_pos hb, if_pos hb]
    · rw [if_neg hb, if_neg hb]
  · rfl

/-- The texts of the shape `.+?\/(.+?)\/(\d+)`. -/
theorem shape_reLatest {w : List Char} {caps : List (List Char)}
    (h : Shape reLatest.atoms w caps) :
    ∃ s1 x d, s1 ≠ [] ∧ (∀ c ∈ s1, isDot c = true) ∧ x ≠ [] ∧ (∀ c ∈ x, isDot c = true) ∧
      d ≠ [] ∧ (∀ c ∈ d, isDigit c = true) ∧ w = s1 ++ '/' :: (x ++ '/' :: d) ∧
      caps = [x, d] := by
  obtain ⟨s1, w1, h1, h1w, hs1, rfl⟩ := shape_plus_nocapture h
  obtain ⟨w2, hs2, rfl⟩ := shape_slash_one hs1
  obtain ⟨x, w3, c3, h2, h2w, hs3, rfl, rfl⟩ := shape_plus_capture hs2
  obtain ⟨w4, hs4, rfl⟩ := shape_slash_one hs3
  obtain ⟨d, w5, c5, h3, h3w, hs5, rfl, rfl⟩ := shape_plus_capture hs4
  obtain ⟨rfl, rfl⟩ := shape_nil_inv hs5
  exact ⟨s1, x, d, h1, h1w, h2, h2w, h3, h3w, by simp, rfl⟩

/-- The digit run that the loop extracts is a non-empty string of digits. -/
theorem looseDigits_digits (branch q d : List Char) (h : looseDigits branch q = some d) :
    d ≠ [] ∧ ∀ c ∈ d, isDigit c = true := by
  unfold looseDigits FindStringSubmatch at h
  simp only [show reLatest.anchored = true from rfl, if_true] at h
  cases hm : matchHere reLatest.atoms q with
  | none => simp [hm] at h
  | some r =>
    obtain ⟨hshape, _⟩ := matchHere_sound _ _ _ hm
    obtain ⟨s1, x, d1, _, _, _, _, hd, hdd, _, hc⟩ := shape_reLatest hshape
    simp only [hm, hc] at h
    split at h
    · simp at h
    · simp only [Option.some.injEq] at h
      subst h
      exact ⟨hd, hdd⟩

/-- The epoch of a candidate is never negative. -/
theorem looseDigits_epoch_nonneg (branch q d : List Char) (v : Int)
    (h : looseDigits branch q = some d) (hv : ParseInt d = .ok v) : 0 ≤ v := by
  obtain ⟨hne, hd⟩ := looseDigits_digits branch q d h
  rw [parseInt_digits d hne hd] at hv
  split at hv
  · simp only [Except.ok.injEq] at hv
    rw [← hv]
    exact Int.natCast_nonneg _
  · simp at hv

theorem latestLoop_no_match (branch : List Char) (ts : Int) (ptr : Option (List Char))
    (l : List (List Char)) (h : ∀ q ∈ l, looseDigits branch q = none) :
    latestLoop branch ts ptr l = .ok (ts, ptr) := by
  induction l with
  | nil => rfl
  | cons q rest ih =>
    rw [latestLoop_cons, h q (List.mem_cons_self _ _)]
    exact ih (fun q1 hq1 => h q1 (List.mem_cons_of_mem _ hq1))

theorem latestLoop_error (branch : List Char) (ts : Int) (ptr : Option (List Char))
    (l : List (List Char)) (err : Error) (h : latestLoop branch ts ptr l = .error err) :
    ∃ d e, err = .numError d e := by
  induction l generalizing ts ptr with
  | nil => simp [latestLoop] at h
  | cons q rest ih =>
    rw [latestLoop_cons] at h
    cases hd : looseDigits branch q with
    | none =>
      simp only [hd] at h
      exact ih _ _ h
    | some d =>
      simp only [hd] at h
      cases hp : ParseInt d with
      | error e =>
        simp only [hp, Except.error.injEq] at h
        exact ⟨d, e, h.symm⟩
      | ok v =>
        simp only [hp] at h
        split at h
        · exact ih _ _ h
        · exact ih _ _ h

/-- What a completed loop has computed: the maximum of the start value and the epochs of
the candidates, and the first candidate of that epoch when it is above the start value. -/
theorem latestLoop_ok (branch : List Char) (ts : Int) (ptr : Option (List Char))
    (l : List (List Char)) (ts1 : Int) (ptr1 : Option (List Char))
    (h : latestLoop branch ts ptr l = .ok (ts1, ptr1)) :
    ts ≤ ts1 ∧
    (∀ q ∈ l, ∀ d v, looseDigits branch q = some d → ParseInt d = .ok v → v ≤ ts1) ∧
    ((ts1 = ts ∧ ptr1 = ptr) ∨
      (ts < ts1 ∧ ∃ pre y post d, l = pre ++ y :: post ∧ ptr1 = some y ∧
        looseDigits branch y = some d ∧ ParseInt d = .ok ts1 ∧
        ∀ q ∈ pre, ∀ dq v, looseDigits branch q = some dq → ParseInt dq = .ok v → v < ts1)) := by
  induction l generalizing ts ptr with
  | nil =>
    simp only [latestLoop, Except.ok.injEq, Prod.mk.injEq] at h
    obtain ⟨rfl, rfl⟩ := h
    exact ⟨le_refl _, by simp, Or.inl ⟨rfl, rfl⟩⟩
  | cons q rest ih =>
    rw [latestLoop_cons] at h
    cases hd : looseDigits branch q with
    | none =>
      simp only [hd] at h
      obtain ⟨h1, h2, h3⟩ := ih _ _ h
      refine ⟨h1, ?_, ?_⟩
      · intro q1 hq1 d v hd1 hv
        rcases List.mem_cons.1 hq1 with rfl | hq1
        · rw [hd] at hd1; exact absurd hd1 (by simp)
        · exact h2 q1 hq1 d v hd1 hv
      · rcases h3 with h3 | ⟨hlt, pre, y, post, d, hl, hp, hy, hv, hpre⟩
        · exact Or.inl h3
        · refine Or.inr ⟨hlt, q :: pre, y, post, d, by simp [hl], hp, hy, hv, ?_⟩
          intro q1 hq1 dq v hd1 hv1
          rcases List.mem_cons.1 hq1 with rfl | hq1
          · rw [hd] at hd1; exact absurd hd1 (by simp)
          · exact hpre q1 hq1 dq v hd1 hv1
    | some d =>
      simp only [hd] at h
      cases hp : ParseInt d with
      | error e => simp [hp] at h
      | ok v =>
        simp only [hp] at h
        by_cases hgt : v > ts
        · simp only [hgt, if_true] at h
          obtain ⟨h1, h2, h3⟩ := ih _ _ h
          refine ⟨by omega, ?_, Or.inr ⟨by omega, ?_⟩⟩
          · intro q1 hq1 d1 v1 hd1 hv1
            rcases List.mem_cons.1 hq1 with rfl | hq1
            · rw [hd] at hd1
              simp only [Option.some.injEq] at hd1
              subst hd1
              rw [hp] at hv1
              simp only [Except.ok.injEq] at hv1
              omega
            · exact h2 q1 hq1 d1 v1 hd1 hv1
          · rcases h3 with ⟨h3a, h3b⟩ | ⟨hlt, pre, y, post, d1, hl, hp1, hy, hv, hpre⟩
            · subst h3a
              exact ⟨[], q, rest, d, rfl, h3b, hd, hp, by simp⟩
            · refine ⟨q :: pre, y, post, d1, by simp [hl], hp1, hy, hv, ?_⟩
              intro q1 hq1 dq v1 hd1 hv1
              rcases List.mem_cons.1 hq1 with rfl | hq1
              · rw [hd] at hd1
                simp only [Option.some.injEq] at hd1
                subst hd1
                rw [hp] at hv1
                simp only [Except.ok.injEq] at hv1
                omega
              · exact hpre q1 hq1 dq v1 hd1 hv1
        · simp only [hgt, if_false] at h
          obtain ⟨h1, h2, h3⟩ := ih _ _ h
          refine ⟨h1, ?_, ?_⟩
          · intro q1 hq1 d1 v1 hd1 hv1
            rcases List.mem_cons.1 hq1 with rfl | hq1
            · rw [hd] at hd1
              simp only [Option.some.injEq] at hd1
              subst hd1
              rw [hp] at hv1
              simp only [Except.ok.injEq] at hv1
              omega
            · exact h2 q1 hq1 d1 v1 hd1 hv1
          · rcases h3 with h3 | ⟨hlt, pre, y, post, d1, hl, hp1, hy, hv, hpre⟩
            · exact Or.inl h3
            · refine Or.inr ⟨hlt, q :: pre, y, post, d1, by simp [hl], hp1, hy, hv, ?_⟩
              intro q1 hq1 dq v1 hd1 hv1
              rcases List.mem_cons.1 hq1 with rfl | hq1
              · rw [hd] at hd1
                simp only [Option.some.injEq] at hd1
                subst hd1
                rw [hp] at hv1
                simp only [Except.ok.injEq] at hv1
                omega
              · exact hpre q1 hq1 dq v1 hd1 hv1

theorem latestLoop_ok_parses (branch : List Char) (ts : Int) (ptr : Option (List Char))
    (l : List (List Char)) (res : Int × Option (List Char))
    (h : latestLoop branch ts ptr l = .ok res) :
    ∀ q ∈ l, ∀ d, looseDigits branch q = some d → ∃ v, ParseInt d = .ok v := by
  induction l generalizing ts ptr with
  | nil => simp
  | cons q rest ih =>
    rw [latestLoop_cons] at h
    intro q1 hq1 d1 hd1
    cases hd : looseDigits branch q with
    | none =>
      simp only [hd] at h
      rcases List.mem_cons.1 hq1 with rfl | hq1
      · rw [hd] at hd1; exact absurd hd1 (by simp)
      · exact ih _ _ h q1 hq1 d1 hd1
    | some d =>
      simp only [hd] at h
      cases hp : ParseInt d with
      | error e => simp [hp] at h
      | ok v =>
        simp only [hp] at h
        rcases List.mem_cons.1 hq1 with rfl | hq1
        · rw [hd] at hd1
          simp only [Option.some.injEq] at hd1
          subst hd1
          exact ⟨v, hp⟩
        · split at h
          · exact ih _ _ h q1 hq1 d1 hd1
          · exact ih _ _ h q1 hq1 d1 hd1

/-- The loop keeps its state over prefixes whose epochs are not above the current one. -/
theorem latestLoop_stay (branch : List Char) (ts : Int) (ptr : Option (List Char))
    (l : List (List Char))
    (hparse : ∀ q ∈ l, ∀ d, looseDigits branch q = some d → ∃ v, ParseInt d = .ok v)
    (hle : ∀ q ∈ l, ∀ d v, looseDigits branch q = some d → ParseInt d = .ok v → v ≤ ts) :
    latestLoop branch ts ptr l = .ok (ts, ptr) := by
  induction l with
  | nil => rfl
  | cons q rest ih =>
    have ih1 := ih (fun q1 hq1 => hparse q1 (List.mem_cons_of_mem _ hq1))
      (fun q1 hq1 => hle q1 (List.mem_cons_of_mem _ hq1))
    rw [latestLoop_cons]
    cases hd : looseDigits branch q with
    | none => exact ih1
    | some d =>
      obtain ⟨v, hv⟩ := hparse q (List.mem_cons_self _ _) d hd
      have hvle : ¬ v > ts := not_lt.2 (hle q (List.mem_cons_self _ _) d v hd hv)
      simp only [hv, hvle, if_false]
      exact ih1

/-- The loop ends on the first prefix of the maximal epoch. -/
theorem latestLoop_pick (branch : List Char) (pre : List (List Char)) (p : List Char)
    (post : List (List Char)) (d : List Char) (e : Int)
    (hp : looseDigits branch p = some d) (he : ParseInt d = .ok e)
    (hparse : ∀ q ∈ pre ++ p :: post, ∀ dq, looseDigits branch q = some dq →
      ∃ v, ParseInt dq = .ok v)
    (hpre : ∀ q ∈ pre, ∀ dq v, looseDigits branch q = some dq → ParseInt dq = .ok v → v < e)
    (hpost : ∀ q ∈ post, ∀ dq v, looseDigits branch q = some dq → ParseInt dq = .ok v → v ≤ e)
    (ts : Int) (ptr : Option (List Char)) (hts : ts < e) :
    latestLoop branch ts ptr (pre ++ p :: post) = .ok (e, some p) := by
  induction pre generalizing ts ptr with
  | nil =>
    have hgt : e > ts := hts
    simp only [List.nil_append, latestLoop_cons, hp, he, hgt, if_true]
    exact latestLoop_stay branch e (some p) post
      (fun q hq => hparse q (by simp [hq])) hpost
  | cons q pre ih =>
    have ih1 := ih (fun q1 hq1 => hparse q1 (by
        rcases List.mem_append.1 hq1 with h | h
        · simp [h]
        · simp only [List.cons_append, List.mem_cons, List.mem_append]
          exact Or.inr (Or.inr (List.mem_cons.1 h))))
      (fun q1 hq1 => hpre q1 (List.mem_cons_of_mem _ hq1))
    simp only [List.cons_append]
    rw [latestLoop_cons]
    cases hd : looseDigits branch q with
    | none => exact ih1 ts ptr hts
    | some dq =>
      obtain ⟨v, hv⟩ := hparse q (by simp) dq hd
      have hlt : v < e := hpre q (List.mem_cons_self _ _) dq v hd hv
      simp only [hv]
      split
      · exact ih1 v (some q) hlt
      · exact ih1 ts ptr hts

theorem could_not_parse_ne (y : List Char) :
    "Could not parse '".toList ++ y ++ "' as Buildset".toList ≠ "No matching buildset".toList := by
  intro h
  have h0 := congrArg List.head? h
  simp at h0

/-- `S3ListLatestBuildsetForProject` after a listing that succeeded and is not marked
truncated. -/
theorem S3ListLatestBuildsetForProject_listed (s3svc : S3)
    (project branch s3bucket : List Char) (resp : ListObjectsV2Output)
    (hresp : s3svc { Bucket := s3bucket, Prefix := some (project ++ ['/'] ++ branch ++ ['/']),
                     Delimiter := some ['/'] } = .ok resp)
    (htr : resp.IsTruncated = false) :
    S3ListLatestBuildsetForProject s3svc project branch s3bucket =
      match latestLoop branch (-(2 : Int) ^ 63) none resp.CommonPrefixes with
      | .error err => .error err
      | .ok (_, none) => .error (.errorString "No matching buildset".toList)
      | .ok (_, some newestBuildset) =>
        match parseBuildset newestBuildset with
        | none =>
          .error (.errorString
            ("Could not parse '".toList ++ newestBuildset ++ "' as Buildset".toList))
        | some buildset => .ok buildset := by
  unfold S3ListLatestBuildsetForProject
  simp only [hresp, htr, Bool.false_eq_true, if_false]

/-! ## Theorems: `S3ListLatestBuildsetForProject` -/

/-- C1: on a listing that is not truncated and whose candidates all have a digit run that
parses, the outcome of `S3ListLatestBuildsetForProject` is `parseBuildset` applied to
the first prefix, in listing order, of maximal epoch among the prefixes that match the
loose pattern with the requested branch: the parsed Buildset, or the error "Could not
parse" when that prefix does not parse. -/
theorem S3ListLatestBuildsetForProject_first_newest (s3svc : S3)
    (project branch s3bucket : List Char) (resp : ListObjectsV2Output)
    (pre : List (List Char)) (p : List Char) (post : List (List Char)) (d : List Char) (e : Int)
    (hresp : s3svc { Bucket := s3bucket, Prefix := some (project ++ ['/'] ++ branch ++ ['/']),
                     Delimiter := some ['/'] } = .ok resp)
    (htr : resp.IsTruncated = false)
    (hlist : resp.CommonPrefixes = pre ++ p :: post)
    (hparse : ∀ q ∈ resp.CommonPrefixes, ∀ dq, looseDigits branch q = some dq →
      ∃ v, ParseInt dq = .ok v)
    (hp : looseDigits branch p = some d) (he : ParseInt d = .ok e)
    (hpre : ∀ q ∈ pre, ∀ dq v, looseDigits branch q = some dq → ParseInt dq = .ok v → v < e)
    (hpost : ∀ q ∈ post, ∀ dq v, looseDigits branch q = some dq → ParseInt dq = .ok v → v ≤ e) :
    S3ListLatestBuildsetForProject s3svc project branch s3bucket =
      match parseBuildset p with
      | some buildset => .ok buildset
      | none => .error (.errorString
          ("Could not parse '".toList ++ p ++ "' as Buildset".toList)) := by
  have hnn : 0 ≤ e := looseDigits_epoch_nonneg branch p d e hp he
  have hts : -(2 : Int) ^ 63 < e := lt_of_lt_of_le (by norm_num) hnn
  have hloop := latestLoop_pick branch pre p post d e hp he (hlist ▸ hparse) hpre hpost
    (-(2 : Int) ^ 63) none hts
  rw [S3ListLatestBuildsetForProject_listed s3svc project branch s3bucket resp hresp htr,
    hlist, hloop]
  dsimp only
  cases parseBuildset p <;> rfl

/-- C5: on a listing that is not truncated, `S3ListLatestBuildsetForProject` fails with
the error "No matching buildset" if and only if no prefix of the listing matches the
loose pattern with the requested branch. -/
theorem S3ListLatestBuildsetForProject_no_match_iff (s3svc : S3)
    (project branch s3bucket : List Char) (resp : ListObjectsV2Output)
    (hresp : s3svc { Bucket := s3bucket, Prefix := some (project ++ ['/'] ++ branch ++ ['/']),
                     Delimiter := some ['/'] } = .ok resp)
    (htr : resp.IsTruncated = false) :
    S3ListLatestBuildsetForProject s3svc project branch s3bucket =
        .error (.errorString "No matching buildset".toList) ↔
      ∀ q ∈ resp.CommonPrefixes, looseDigits branch q = none := by
  constructor
  · intro h q hq
    cases hd : looseDigits branch q with
    | none => rfl
    | some d =>
      exfalso
      rw [S3ListLatestBuildsetForProject_listed s3svc project branch s3bucket resp hresp htr]
        at h
      cases hl : latestLoop branch (-(2 : Int) ^ 63) none resp.CommonPrefixes with
      | error err =>
        obtain ⟨d1, e1, rfl⟩ := latestLoop_error _ _ _ _ _ hl
        rw [hl] at h
        simp at h
      | ok res =>
        obtain ⟨ts1, ptr1⟩ := res
        obtain ⟨v, hv⟩ := latestLoop_ok_parses _ _ _ _ _ hl q hq d hd
        obtain ⟨_, hmax, hcase⟩ := latestLoop_ok _ _ _ _ _ _ hl
        have hv0 : 0 ≤ v := looseDigits_epoch_nonneg branch q d v hd hv
        have hvle : v ≤ ts1 := hmax q hq d v hd hv
        rcases hcase with ⟨h1, _⟩ | ⟨_, pre, y, post, d1, _, hptr, _, _, _⟩
        · rw [h1] at hvle
          norm_num at hvle
          omega
        · subst hptr
          rw [hl] at h
          cases hb : parseBuildset y with
          | none =>
            have h2 : Except.error (Error.errorString
                ("Could not parse '".toList ++ y ++ "' as Buildset".toList)) =
                (Except.error (Error.errorString "No matching buildset".toList) :
                  Except Error Buildset) := by
              simpa only [hb] using h
            simp only [Except.error.injEq, Error.errorString.injEq] at h2
            exact could_not_parse_ne y h2
          | some bs =>
            have h2 : Except.ok bs =
                (Except.error (Error.errorString "No matching buildset".toList) :
                  Except Error Buildset) := by
              simpa only [hb] using h
            exact absurd h2 (by simp)
  · intro h
    rw [S3ListLatestBuildsetForProject_listed s3svc project branch s3bucket resp hresp htr,
      latestLoop_no_match branch _ none resp.CommonPrefixes h]

/-! ## Lemmas: the loose pattern and `parseBuildset` on the same prefix -/

/-- A run of a class that cannot be extended is determined by the text it starts. -/
theorem run_unique (p : Char → Bool) (a x d y : List Char) (ha : ∀ c ∈ a, p c = true)
    (hd : ∀ c ∈ d, p c = true) (hx : ∀ c t, x = c :: t → p c = false)
    (hy : ∀ c t, y = c :: t → p c = false) (h : a ++ x = d ++ y) : a = d := by
  induction a generalizing d with
  | nil =>
    cases d with
    | nil => rfl
    | cons c d =>
      have h1 := hx c (d ++ y) (by simpa using h)
      rw [hd c (List.mem_cons_self _ _)] at h1
      exact absurd h1 (by simp)
  | cons c a ih =>
    cases d with
    | nil =>
      have h1 := hy c (a ++ x) (by simpa using h.symm)
      rw [ha c (List.mem_cons_self _ _)] at h1
      exact absurd h1 (by simp)
    | cons e d =>
      simp only [List.cons_append, List.cons.injEq] at h
      obtain ⟨rfl, h2⟩ := h
      rw [ih d (fun x hx => ha x (List.mem_cons_of_mem _ hx))
        (fun x hx => hd x (List.mem_cons_of_mem _ hx)) h2]

/-- On a prefix `P/B/rest` with `P` a non-empty string of word characters, when the
loose pattern extracts the branch `B`, the digit run it extracts is the run of digits
that starts `rest`. -/
theorem looseDigits_prefixed (P B rest d : List Char) (hP : P ≠ [])
    (hPw : ∀ c ∈ P, isWord c = true)
    (hlo : looseDigits B (P ++ '/' :: (B ++ '/' :: rest)) = some d) :
    ∃ t, rest = d ++ t ∧ d ≠ [] ∧ (∀ c ∈ d, isDigit c = true) ∧
      ∀ c t2, t = c :: t2 → isDigit c = false := by
  unfold looseDigits FindStringSubmatch at hlo
  simp only [show reLatest.anchored = true from rfl, if_true] at hlo
  cases hm : matchHere reLatest.atoms (P ++ '/' :: (B ++ '/' :: rest)) with
  | none => simp [hm] at hlo
  | some r =>
    obtain ⟨s1, t1, r1, hs1, hs1d, hq, hm1, hr, hmin⟩ := matchHere_lazy_inv _ _ _ _ _ hm
    obtain ⟨t2, r2, ht1, hm2, hr1⟩ := matchHere_slash_inv _ _ _ hm1
    obtain ⟨X, t3, r3, hX, hXd, ht2, hm3, hr2, _⟩ := matchHere_lazy_inv _ _ _ _ _ hm2
    obtain ⟨t4, r4, ht3, hm4, hr3⟩ := matchHere_slash_inv _ _ _ hm3
    obtain ⟨D, t5, r5, hD, hDd, ht4, hm5, hr4, hmax⟩ := matchHere_greedy_inv _ _ _ _ _ hm4
    have hr5 : r5 = ([], []) := by
      simpa [matchHere] using hm5.symm
    subst hr5
    have hstop : ∀ c t6, t5 = c :: t6 → isDigit c = false := by
      intro c t6 ht5
      by_contra hc
      have hc1 : isDigit c = true := by simpa using hc
      have := hmax [c] t6 (by simp) (by simpa using hc1) (by simpa using ht5)
      simp [matchHere] at this
    have hcaps : r.2 = [X, D] := by
      rw [hr, hr1, hr2, hr3, hr4]
      simp
    simp only [hm, hcaps] at hlo
    have hXB : X = B := by
      by_contra hne
      simp [hne] at hlo
    have hDd1 : D = d := by
      simpa [hXB] using hlo
    subst hXB hDd1
    have hq2 : P ++ '/' :: (X ++ '/' :: rest) = s1 ++ '/' :: (X ++ '/' :: (D ++ t5)) := by
      rw [hq, ht1, ht2, ht3, ht4]
    have hs1P : s1 = P := by
      rcases List.append_eq_append_iff.1 hq2 with ⟨a1, ha1, ha2⟩ | ⟨c1, hc1, hc2⟩
      · cases a1 with
        | nil => simpa using ha1
        | cons e a1 =>
          exfalso
          simp only [List.cons_append, List.cons.injEq] at ha2
          obtain ⟨rfl, ha3⟩ := ha2
          have hnone := hmin P ('/' :: a1) hP (by simp) ha1
          have hshape : Shape
              [⟨isSlash, .one, false⟩, ⟨isDot, .plusLazy, true⟩, ⟨isSlash, .one, false⟩,
                ⟨isDigit, .plus, true⟩]
              (['/'] ++ ((a1 ++ '/' :: X) ++ (['/'] ++ (D ++ []))))
              [a1 ++ '/' :: X, D] := by
            refine Shape.cons ⟨isSlash, .one, false⟩ _ ['/'] _ _ (by simp) (by simp [isSlash])
              (fun _ => rfl) ?_
            refine Shape.cons ⟨isDot, .plusLazy, true⟩ _ (a1 ++ '/' :: X) _ [D] (by simp) ?_
              (by simp) ?_
            · intro c hc
              rcases List.mem_append.1 hc with hc | hc
              · exact hs1d c (by rw [ha1]; simp [hc])
              · rcases List.mem_cons.1 hc with rfl | hc
                · exact isDot_slash
                · exact hXd c hc
            · refine Shape.cons ⟨isSlash, .one, false⟩ _ ['/'] _ _ (by simp) (by simp [isSlash])
                (fun _ => rfl) ?_
              exact Shape.cons ⟨isDigit, .plus, true⟩ _ D [] [] hD hDd (by simp) Shape.nil
          have hsome := matchHere_complete _ _ _ hshape t5
          apply hsome
          rw [← hnone, ht1, ht2, ht3, ht4]
          simp
      · cases c1 with
        | nil => simpa using hc1.symm
        | cons e c1 =>
          exfalso
          simp only [List.cons_append, List.cons.injEq] at hc2
          have : '/' ∈ P := by
            rw [hc1, hc2.1]
            simp
          exact slash_not_mem_of_word hPw this
    subst hs1P
    have hrest : rest = D ++ t5 := by
      have h1 := List.append_cancel_left hq2
      simp only [List.cons.injEq, true_and] at h1
      have h2 := List.append_cancel_left h1
      simpa using h2
    exact ⟨t5, hrest, hD, hDd, hstop⟩

/-- The run of a class that starts a text. -/
theorem run_exists (p : Char → Bool) (l : List Char) :
    ∃ w t, l = w ++ t ∧ (∀ c ∈ w, p c = true) ∧ (∀ c t2, t = c :: t2 → p c = false) ∧
      (∀ c l1, l = c :: l1 → p c = true → w ≠ []) := by
  induction l with
  | nil => exact ⟨[], [], rfl, by simp, by simp, by simp⟩
  | cons c l ih =>
    by_cases hc : p c = true
    · obtain ⟨w, t, hl, hw, ht, _⟩ := ih
      refine ⟨c :: w, t, by simp [hl], ?_, ht, by simp⟩
      intro x hx
      rcases List.mem_cons.1 hx with rfl | hx
      · exact hc
      · exact hw x hx
    · refine ⟨[], c :: l, rfl, by simp, ?_, ?_⟩
      · intro x t2 h
        simp only [List.cons.injEq] at h
        rw [← h.1]
        simpa using hc
      · intro x l1 h hx
        simp only [List.cons.injEq] at h
        rw [← h.1] at hx
        exact absurd hx hc

/-- On a prefix `P/B/rest` with `P` and `B` non-empty strings of word characters, the
loose pattern and `parseBuildset` agree: when the loose pattern extracts the branch `B`
and `parseBuildset` succeeds, the Buildset has the project `P`, the branch `B`, and the
value of the digit run that the loose pattern extracted. -/
theorem loose_strict_agree (P B rest d : List Char) (bs : Buildset) (hP : P ≠ [])
    (hPw : ∀ c ∈ P, isWord c = true) (hB : B ≠ []) (hBw : ∀ c ∈ B, isWord c = true)
    (hlo : looseDigits B (P ++ '/' :: (B ++ '/' :: rest)) = some d)
    (hb : parseBuildset (P ++ '/' :: (B ++ '/' :: rest)) = some bs) :
    bs.Project = P ∧ bs.Branch = B ∧ ParseInt d = .ok bs.UnixTimestamp := by
  obtain ⟨t, hrest, hd, hdd, hstop⟩ := looseDigits_prefixed P B rest d hP hPw hlo
  obtain ⟨w, t1, hwt, hww, ht1, hwne⟩ := run_exists isWord rest
  have hw : w ≠ [] := by
    cases d with
    | nil => exact absurd rfl hd
    | cons c d1 =>
      exact hwne c (d1 ++ t) (by rw [hrest]; rfl)
        (isWord_of_isDigit (hdd c (List.mem_cons_self _ _)))
  have hmatch := matchHere_reBuildset P B w t1 hP hPw hB hBw hw hww ht1
  rw [← hwt] at hmatch
  have hfind : FindStringSubmatch reBuildset (P ++ '/' :: (B ++ '/' :: rest)) =
      [P ++ '/' :: (B ++ '/' :: w), P, B, w] := by
    unfold FindStringSubmatch
    simp only [show reBuildset.anchored = false from rfl, Bool.false_eq_true, if_false,
      searchFrom_of_matchHere _ _ _ hmatch]
  obtain ⟨m0, m1, m2, m3, sub0, sub1, v, hf, hsp, hv, rfl⟩ := parseBuildset_some _ bs hb
  rw [hfind] at hf
  simp only [List.cons.injEq, and_true] at hf
  obtain ⟨_, rfl, rfl, rfl⟩ := hf
  have hweq := split_two _ _ _ _ hsp
  have hsubw : ∀ c ∈ sub0, isWord c = true := by
    intro c hc
    apply hww
    rw [hweq]
    simp [hc]
  obtain ⟨_, hsubd, _, _⟩ := parseInt_word_ok sub0 v hsubw hv
  have hrun : sub0 ++ ('_' :: '_' :: (sub1 ++ t1)) = d ++ t := by
    rw [← hrest, hwt, hweq]
    simp
  have hsub : sub0 = d := run_unique isDigit sub0 _ d t hsubd hdd
    (by
      intro c t2 h
      simp only [List.cons.injEq] at h
      rw [← h.1]
      exact isDigit_underscore)
    hstop hrun
  subst hsub
  exact ⟨rfl, rfl, hv⟩

/-- What a successful call of `S3ListLatestBuildsetForProject` went through: the result
is `parseBuildset` of the first prefix of maximal epoch among the candidates. -/
theorem S3ListLatestBuildsetForProject_ok (s3svc : S3)
    (project branch s3bucket : List Char) (resp : ListObjectsV2Output) (bs : Buildset)
    (hresp : s3svc { Bucket := s3bucket, Prefix := some (project ++ ['/'] ++ branch ++ ['/']),
                     Delimiter := some ['/'] } = .ok resp)
    (h : S3ListLatestBuildsetForProject s3svc project branch s3bucket = .ok bs) :
    resp.IsTruncated = false ∧
    ∃ pre p post d e, resp.CommonPrefixes = pre ++ p :: post ∧
      looseDigits branch p = some d ∧ ParseInt d = .ok e ∧
      (∀ q ∈ resp.CommonPrefixes, ∀ dq v, looseDigits branch q = some dq →
        ParseInt dq = .ok v → v ≤ e) ∧
      (∀ q ∈ pre, ∀ dq v, looseDigits branch q = some dq → ParseInt dq = .ok v → v < e) ∧
      parseBuildset p = some bs := by
  have htr : resp.IsTruncated = false := by
    cases ht : resp.IsTruncated with
    | false => rfl
    | true =>
      exfalso
      unfold S3ListLatestBuildsetForProject at h
      simp only [hresp, ht, if_true] at h
      exact absurd h (by simp)
  refine ⟨htr, ?_⟩
  rw [S3ListLatestBuildsetForProject_listed s3svc project branch s3bucket resp hresp htr] at h
  cases hl : latestLoop branch (-(2 : Int) ^ 63) none resp.CommonPrefixes with
  | error err =>
    rw [hl] at h
    exact absurd h (by simp)
  | ok res =>
    obtain ⟨ts1, ptr1⟩ := res
    rw [hl] at h
    obtain ⟨_, hmax, hcase⟩ := latestLoop_ok _ _ _ _ _ _ hl
    cases ptr1 with
    | none => exact absurd h (by simp)
    | some y =>
      rcases hcase with ⟨_, h2⟩ | ⟨_, pre, y1, post, d, hlist, hptr, hy, hv, hpre⟩
      · exact absurd h2 (by simp)
      · simp only [Option.some.injEq] at hptr
        subst hptr
        refine ⟨pre, y, post, d, ts1, hlist, hy, hv, hmax, hpre, ?_⟩
        cases hb : parseBuildset y with
        | none =>
          exfalso
          have h2 : (Except.error (Error.errorString
              ("Could not parse '".toList ++ y ++ "' as Buildset".toList)) :
                Except Error Buildset) = Except.ok bs := by
            simpa only [hb] using h
          exact absurd h2 (by simp)
        | some b =>
          have h2 : (Except.ok b : Except Error Buildset) = Except.ok bs := by
            simpa only [hb] using h
          simpa using h2

/-- C10, as amended: when the requested project and branch are non-empty strings of word
characters and every candidate prefix starts with `project/branch/`, a Buildset that
`S3ListLatestBuildsetForProject` returns has the requested branch, and its
`UnixTimestamp` is the epoch that the loose pattern extracted from the selected prefix
(its `Key`), which is the maximum over the candidates of the requested branch. -/
theorem S3ListLatestBuildsetForProject_consistent (s3svc : S3)
    (project branch s3bucket : List Char) (resp : ListObjectsV2Output) (bs : Buildset)
    (hresp : s3svc { Bucket := s3bucket, Prefix := some (project ++ ['/'] ++ branch ++ ['/']),
                     Delimiter := some ['/'] } = .ok resp)
    (hproj : project ≠ []) (hprojw : ∀ c ∈ project, isWord c = true)
    (hbr : branch ≠ []) (hbrw : ∀ c ∈ branch, isWord c = true)
    (hstart : ∀ q ∈ resp.CommonPrefixes, project ++ ['/'] ++ branch ++ ['/'] <+: q)
    (h : S3ListLatestBuildsetForProject s3svc project branch s3bucket = .ok bs) :
    bs.Branch = branch ∧ bs.Key ∈ resp.CommonPrefixes ∧
    (∃ d, looseDigits branch bs.Key = some d ∧ ParseInt d = .ok bs.UnixTimestamp) ∧
    ∀ q ∈ resp.CommonPrefixes, ∀ dq v, looseDigits branch q = some dq →
      ParseInt dq = .ok v → v ≤ bs.UnixTimestamp := by
  obtain ⟨_, pre, p, post, d, e, hlist, hd, he, hmax, _, hb⟩ :=
    S3ListLatestBuildsetForProject_ok s3svc project branch s3bucket resp bs hresp h
  have hmem : p ∈ resp.CommonPrefixes := by rw [hlist]; simp
  obtain ⟨rest, hrest⟩ := hstart p hmem
  have hp : p = project ++ '/' :: (branch ++ '/' :: rest) := by
    rw [← hrest]; simp
  have hkey : bs.Key = p := by
    obtain ⟨_, _, _, _, _, _, _, _, _, _, hbs⟩ := parseBuildset_some p bs hb
    rw [hbs]
  rw [hp] at hd hb
  obtain ⟨_, hbranch, hts⟩ := loose_strict_agree project branch rest d bs hproj hprojw hbr
    hbrw hd hb
  have hev : e = bs.UnixTimestamp := by
    rw [he] at hts
    simpa using hts
  refine ⟨hbranch, hkey ▸ hmem, ⟨d, ?_, hts⟩, ?_⟩
  · rw [hkey, hp]; exact hd
  · rw [← hev]; exact hmax

/-- Witness for C1: the prefixes `proj/rel/100__a/`, `proj/rel/300__b/` and
`proj/rel/200__c/` with the branch `rel` give the timestamp `300` and the tag `b`; two
prefixes of the same epoch give the earlier one. -/
theorem S3ListLatestBuildsetForProject_first_newest_witness :
    S3ListLatestBuildsetForProject
        (fun _ => .ok ⟨false, ["proj/rel/100__a/".toList, "proj/rel/300__b/".toList,
          "proj/rel/200__c/".toList], []⟩)
        "proj".toList "rel".toList "bucket".toList =
      .ok ⟨"proj/rel/300__b/".toList, "proj".toList, "rel".toList, 300, "b".toList⟩ ∧
    S3ListLatestBuildsetForProject
        (fun _ => .ok ⟨false, ["proj/rel/300__x/".toList, "proj/rel/300__y/".toList], []⟩)
        "proj".toList "rel".toList "bucket".toList =
      .ok ⟨"proj/rel/300__x/".toList, "proj".toList, "rel".toList, 300, "x".toList⟩ := by
  have e1 : looseDigits "rel".toList "proj/rel/100__a/".toList = some "100".toList := by decide
  have e2 : looseDigits "rel".toList "proj/rel/300__b/".toList = some "300".toList := by decide
  have e3 : looseDigits "rel".toList "proj/rel/200__c/".toList = some "200".toList := by decide
  have e4 : looseDigits "rel".toList "proj/rel/300__x/".toList = some "300".toList := by decide
  have e5 : looseDigits "rel".toList "proj/rel/300__y/".toList = some "300".toList := by decide
  have p1 : ParseInt "100".toList = .ok 100 := rfl
  have p2 : ParseInt "200".toList = .ok 200 := rfl
  have p3 : ParseInt "300".toList = .ok 300 := rfl
  constructor
  · have h := S3ListLatestBuildsetForProject_first_newest
      (fun _ => .ok ⟨false, ["proj/rel/100__a/".toList, "proj/rel/300__b/".toList,
        "proj/rel/200__c/".toList], []⟩)
      "proj".toList "rel".toList "bucket".toList _
      ["proj/rel/100__a/".toList] "proj/rel/300__b/".toList ["proj/rel/200__c/".toList]
      "300".toList 300 rfl rfl rfl
      (by
        intro q hq dq hdq
        rcases List.mem_cons.1 hq with rfl | hq
        · rw [e1] at hdq; cases hdq; exact ⟨100, p1⟩
        · rcases List.mem_cons.1 hq with rfl | hq
          · rw [e2] at hdq; cases hdq; exact ⟨300, p3⟩
          · rcases List.mem_cons.1 hq with rfl | hq
            · rw [e3] at hdq; cases hdq; exact ⟨200, p2⟩
            · cases hq)
      e2 p3
      (by
        intro q hq dq v hdq hv
        rcases List.mem_cons.1 hq with rfl | hq
        · rw [e1] at hdq; cases hdq; rw [p1] at hv; cases hv; decide
        · cases hq)
      (by
        intro q hq dq v hdq hv
        rcases List.mem_cons.1 hq with rfl | hq
        · rw [e3] at hdq; cases hdq; rw [p2] at hv; cases hv; decide
        · cases hq)
    have hb : parseBuildset "proj/rel/300__b/".toList =
        some ⟨"proj/rel/300__b/".toList, "proj".toList, "rel".toList, 300, "b".toList⟩ := by
      decide
    rw [hb] at h
    exact h
  · have h := S3ListLatestBuildsetForProject_first_newest
      (fun _ => .ok ⟨false, ["proj/rel/300__x/".toList, "proj/rel/300__y/".toList], []⟩)
      "proj".toList "rel".toList "bucket".toList _
      [] "proj/rel/300__x/".toList ["proj/rel/300__y/".toList]
      "300".toList 300 rfl rfl rfl
      (by
        intro q hq dq hdq
        rcases List.mem_cons.1 hq with rfl | hq
        · rw [e4] at hdq; cases hdq; exact ⟨300, p3⟩
        · rcases List.mem_cons.1 hq with rfl | hq
          · rw [e5] at hdq; cases hdq; exact ⟨300, p3⟩
          · cases hq)
      e4 p3
      (by intro q hq; cases hq)
      (by
        intro q hq dq v hdq hv
        rcases List.mem_cons.1 hq with rfl | hq
        · rw [e5] at hdq; cases hdq; rw [p3] at hv; cases hv; decide
        · cases hq)
    have hb : parseBuildset "proj/rel/300__x/".toList =
        some ⟨"proj/rel/300__x/".toList, "proj".toList, "rel".toList, 300, "x".toList⟩ := by
      decide
    rw [hb] at h
    exact h

/-- Witness for C5: a listing with no prefix of the requested branch fails with "No
matching buildset", and a single candidate of epoch `0` is enough to avoid that error. -/
theorem S3ListLatestBuildsetForProject_no_match_iff_witness :
    S3ListLatestBuildsetForProject
        (fun _ => .ok ⟨false, ["proj/other/5__a/".toList], []⟩)
        "proj".toList "rel".toList "bucket".toList =
      .error (.errorString "No matching buildset".toList) ∧
    S3ListLatestBuildsetForProject
        (fun _ => .ok ⟨false, ["proj/rel/0__a/".toList], []⟩)
        "proj".toList "rel".toList "bucket".toList ≠
      .error (.errorString "No matching buildset".toList) :=
  ⟨(S3ListLatestBuildsetForProject_no_match_iff
      (fun _ => .ok ⟨false, ["proj/other/5__a/".toList], []⟩)
      "proj".toList "rel".toList "bucket".toList _ rfl rfl).2
      (by
        intro q hq
        rcases List.mem_cons.1 hq with rfl | hq
        · decide
        · cases hq),
    fun h => absurd
      ((S3ListLatestBuildsetForProject_no_match_iff
        (fun _ => .ok ⟨false, ["proj/rel/0__a/".toList], []⟩)
        "proj".toList "rel".toList "bucket".toList _ rfl rfl).1 h
        "proj/rel/0__a/".toList (List.mem_cons_self _ _))
      (by decide)⟩

/-- Witness for C10 as amended: the listing of `proj/rel/` with the prefixes
`proj/rel/100__a/`, `proj/rel/300__b/` and `proj/rel/200__c/`. -/
theorem S3ListLatestBuildsetForProject_consistent_witness :
    (⟨"proj/rel/300__b/".toList, "proj".toList, "rel".toList, 300, "b".toList⟩ :
      Buildset).Branch = "rel".toList ∧
    looseDigits "rel".toList "proj/rel/300__b/".toList = some "300".toList ∧
    ParseInt "300".toList = .ok 300 := by
  have h := S3ListLatestBuildsetForProject_consistent
    (fun _ => .ok ⟨false, ["proj/rel/100__a/".toList, "proj/rel/300__b/".toList,
      "proj/rel/200__c/".toList], []⟩)
    "proj".toList "rel".toList "bucket".toList _
    ⟨"proj/rel/300__b/".toList, "proj".toList, "rel".toList, 300, "b".toList⟩
    rfl (by decide) (by decide) (by decide) (by decide)
    (by
      intro q hq
      rcases List.mem_cons.1 hq with rfl | hq
      · decide
      · rcases List.mem_cons.1 hq with rfl | hq
        · decide
        · rcases List.mem_cons.1 hq with rfl | hq
          · decide
          · cases hq)
    rfl
  obtain ⟨hbranch, _, ⟨d, hd, hts⟩, _⟩ := h
  have e2 : looseDigits "rel".toList "proj/rel/300__b/".toList = some "300".toList := by decide
  have hd2 : some "300".toList = some d := e2.symm.trans hd
  cases hd2
  exact ⟨hbranch, e2, hts⟩

/-- C10 as stated fails.  With the project `proj.` and the branch `team/feature`, the
loose pattern extracts the requested branch from `proj./team/feature/100__a/` and the
returned Buildset has the branch `feature`.  With the branch `rel`, the loose pattern
extracts the epoch `100` from `./rel/100/5__x/` and the returned Buildset has the
timestamp `5`. -/
theorem S3ListLatestBuildsetForProject_consistent_counterexample :
    (looseDigits "team/feature".toList "proj./team/feature/100__a/".toList =
        some "100".toList ∧
      S3ListLatestBuildsetForProject
          (fun _ => .ok ⟨false, ["proj./team/feature/100__a/".toList], []⟩)
          "proj.".toList "team/feature".toList "bucket".toList =
        .ok ⟨"proj./team/feature/100__a/".toList, "team".toList, "feature".toList, 100,
          "a".toList⟩ ∧
      "feature".toList ≠ "team/feature".toList) ∧
    (looseDigits "rel".toList "./rel/100/5__x/".toList = some "100".toList ∧
      S3ListLatestBuildsetForProject
          (fun _ => .ok ⟨false, ["./rel/100/5__x/".toList], []⟩)
          ".".toList "rel".toList "bucket".toList =
        .ok ⟨"./rel/100/5__x/".toList, "rel".toList, "100".toList, 5, "x".toList⟩ ∧
      ParseInt "100".toList = .ok 100) := by
  refine ⟨⟨by decide, rfl, by decide⟩, ⟨by decide, rfl, rfl⟩⟩

/-! ## Theorems: `S3ListProjects` -/

/-- Greedy repetition: if the rest of the pattern accepts the text `m` of the class and
no longer one, that is the result. -/
theorem plusGreedy_longest {α : Type} (p : Char → Bool)
    (k : List Char → List Char → Option α) (acc m s1 : List Char) (r : α) (hm : m ≠ [])
    (hp : ∀ c ∈ m, p c = true)
    (hmax : ∀ m2 s2, m2 ≠ [] → (∀ c ∈ m2, p c = true) → s1 = m2 ++ s2 →
      k (acc ++ m ++ m2) s2 = none)
    (hk : k (acc ++ m) s1 = some r) :
    plusGreedy p k acc (m ++ s1) = some r := by
  induction m generalizing acc with
  | nil => exact absurd rfl hm
  | cons c m ih =>
    have hc : p c = true := hp c (List.mem_cons_self _ _)
    simp only [List.cons_append]
    unfold plusGreedy
    simp only [hc, if_true]
    cases m with
    | nil =>
      have hnone : plusGreedy p k (acc ++ [c]) s1 = none :=
        (plusGreedy_none_iff p k (acc ++ [c]) s1).2 hmax
      simp only [List.nil_append, hnone]
      exact hk
    | cons d m =>
      have := ih (acc ++ [c]) (by simp) (fun x hx => hp x (List.mem_cons_of_mem _ hx))
        (by
          intro m2 s2 hm2 hp2 hs2
          have := hmax m2 s2 hm2 hp2 hs2
          simpa using this)
        (by simpa using hk)
      simp only [this]

/-- The pattern of `S3ListProjects` on a branch prefix `x/w/`, where `x` is a non-empty
text without a line feed and `w` a non-empty string of word characters: the capture is
`w`. -/
theorem find_reBranch_conforming (x w : List Char) (hx : x ≠ [])
    (hxd : ∀ c ∈ x, isDot c = true) (hw : w ≠ []) (hww : ∀ c ∈ w, isWord c = true) :
    FindStringSubmatch reBranch (x ++ '/' :: (w ++ ['/'])) = [x ++ '/' :: w, w] := by
  have h3 : matchHere [⟨isWord, .plus, true⟩] (w ++ ['/']) = some (w, [w]) := by
    have := matchHere_plus_run ⟨isWord, .plus, true⟩ [] w ['/'] ([], []) rfl hw hww
      (by
        intro c s2 h
        simp only [List.cons.injEq] at h
        rw [← h.1]
        exact isWord_slash)
      rfl
    simpa using this
  have h2 : matchHere [⟨isSlash, .one, false⟩, ⟨isWord, .plus, true⟩] ('/' :: (w ++ ['/'])) =
      some ('/' :: w, [w]) := by
    have := matchHere_one ⟨isSlash, .one, false⟩ _ '/' (w ++ ['/']) _ rfl rfl h3
    simpa using this
  have hlater : ∀ m2 s2, m2 ≠ [] → '/' :: (w ++ ['/']) = m2 ++ s2 →
      matchHere [⟨isSlash, .one, false⟩, ⟨isWord, .plus, true⟩] s2 = none := by
    intro m2 s2 hm2 hs
    cases m2 with
    | nil => exact absurd rfl hm2
    | cons e m2 =>
      simp only [List.cons_append, List.cons.injEq] at hs
      obtain ⟨_, hs⟩ := hs
      cases s2 with
      | nil => exact matchHere_one_none _ _ _ rfl (by intro c cs h; cases h)
      | cons c s3 =>
        by_cases hc : c = '/'
        · subst hc
          have hs3 : s3 = [] := by
            rcases List.append_eq_append_iff.1 hs with ⟨a1, _, ha2⟩ | ⟨c1, hc1, hc2⟩
            · cases a1 with
              | nil => simpa using ha2
              | cons e1 a1 =>
                have := congrArg List.length ha2
                simp at this
            · cases c1 with
              | nil => simpa using hc2
              | cons e1 c1 =>
                exfalso
                simp only [List.cons_append, List.cons.injEq] at hc2
                have : '/' ∈ w := by
                  rw [hc1, ← hc2.1]
                  simp
                exact slash_not_mem_of_word hww this
          subst hs3
          show matchAtom _ (matchHere [⟨isWord, .plus, true⟩]) ['/'] = none
          simp [matchAtom, isSlash, withCapture, matchHere, plusGreedy]
        · exact matchHere_one_none _ _ _ rfl (by
            intro c1 cs h
            simp only [List.cons.injEq] at h
            rw [← h.1]
            simpa [isSlash] using hc)
  have h1 : matchHere reBranch.atoms (x ++ '/' :: (w ++ ['/'])) = some (x ++ '/' :: w, [w]) := by
    show plusGreedy isDot (withCapture false (matchHere
      [⟨isSlash, .one, false⟩, ⟨isWord, .plus, true⟩])) [] (x ++ '/' :: (w ++ ['/'])) = _
    apply plusGreedy_longest _ _ _ _ _ _ hx hxd
    · intro m2 s2 hm2 _ hs
      rw [withCapture_none]
      exact hlater m2 s2 hm2 hs
    · simp only [List.nil_append, withCapture, h2, Option.map_some']
      rfl
  unfold FindStringSubmatch
  simp only [show reBranch.anchored = false from rfl, Bool.false_eq_true, if_false,
    searchFrom_of_matchHere _ _ _ h1]

/-- The branch names that the inner loop collects from branch prefixes `x/w/` of that
form are the final segments `w`, in listing order and without deduplication. -/
theorem branchLoop_conforming (segs : List (List Char × List Char))
    (h : ∀ s ∈ segs, s.1 ≠ [] ∧ (∀ c ∈ s.1, isDot c = true) ∧ s.2 ≠ [] ∧
      ∀ c ∈ s.2, isWord c = true) (branches : List (List Char)) :
    branchLoop branches (segs.map (fun s => s.1 ++ '/' :: (s.2 ++ ['/']))) =
      branches ++ segs.map (fun s => s.2) := by
  induction segs generalizing branches with
  | nil => simp [branchLoop]
  | cons s segs ih =>
    obtain ⟨h1, h2, h3, h4⟩ := h s (List.mem_cons_self _ _)
    simp only [List.map_cons, branchLoop, find_reBranch_conforming s.1 s.2 h1 h2 h3 h4]
    rw [ih (fun s1 hs1 => h s1 (List.mem_cons_of_mem _ hs1))]
    simp

/-- The outer loop: one Project per top-level prefix, in listing order, named by the
prefix without its last character, with the branches that the inner loop collects. -/
theorem projectLoop_ok (s3svc : S3) (s3bucket : List Char)
    (br : List Char → ListObjectsV2Output) (l : List (List Char)) (projects : List Project)
    (hne : ∀ pfx ∈ l, pfx ≠ [])
    (hbr : ∀ pfx ∈ l,
      s3svc { Bucket := s3bucket, Prefix := some pfx, Delimiter := some ['/'] } = .ok (br pfx)) :
    projectLoop s3svc s3bucket projects l =
      .ok (projects ++ l.map (fun pfx =>
        { Name := pfx.dropLast, Branches := branchLoop [] (br pfx).CommonPrefixes })) := by
  induction l generalizing projects with
  | nil => simp [projectLoop]
  | cons pfx rest ih =>
    have hpe : pfx.isEmpty = false := by
      have := hne pfx (List.mem_cons_self _ _)
      cases pfx <;> simp_all
    simp only [projectLoop, hpe, Bool.false_eq_true, if_false,
      hbr pfx (List.mem_cons_self _ _)]
    rw [ih _ (fun p hp => hne p (List.mem_cons_of_mem _ hp))
      (fun p hp => hbr p (List.mem_cons_of_mem _ hp))]
    simp

/-- The part of C6 that holds: on a top-level listing that is not truncated and has no
empty prefix, `S3ListProjects` returns one Project per top-level prefix, in listing
order, named by the prefix without its last character, with the branches that the inner
loop collects from the branch listing of that prefix. -/
theorem S3ListProjects_ok (s3svc : S3) (s3bucket : List Char) (resp : ListObjectsV2Output)
    (br : List Char → ListObjectsV2Output)
    (hresp : s3svc { Bucket := s3bucket, Prefix := none, Delimiter := some ['/'] } = .ok resp)
    (htr : resp.IsTruncated = false)
    (hne : ∀ pfx ∈ resp.CommonPrefixes, pfx ≠ [])
    (hbr : ∀ pfx ∈ resp.CommonPrefixes,
      s3svc { Bucket := s3bucket, Prefix := some pfx, Delimiter := some ['/'] } = .ok (br pfx)) :
    S3ListProjects s3svc s3bucket =
      .ok (resp.CommonPrefixes.map (fun pfx =>
        { Name := pfx.dropLast, Branches := branchLoop [] (br pfx).CommonPrefixes })) := by
  unfold S3ListProjects
  simp only [hresp, htr, Bool.false_eq_true, if_false]
  rw [projectLoop_ok s3svc s3bucket br resp.CommonPrefixes [] hne hbr]
  simp

/-- C6 fails on the code: for the branch prefix `proj/feature-x/`, whose final segment is
not a string of word characters, `S3ListProjects` does not skip the prefix but lists
the branch `feature`. -/
theorem S3ListProjects_partial_branch_name :
    S3ListProjects
        (fun inp => match inp.Prefix with
          | none => .ok ⟨false, ["proj/".toList], []⟩
          | some _ => .ok ⟨false, ["proj/master/".toList, "proj/feature-x/".toList], []⟩)
        "bucket".toList =
      .ok [⟨"proj".toList, ["master".toList, "feature".toList]⟩] := by
  rfl

end Binfetch
